import Mathlib

/-!
Verification of the data-processing core of the crusoe-cookbook fine-tuning
pipeline (`content/finetuning-llm/data_processing/processor.py`).

The Python code is shallowly embedded: strings are Lean `String`s (lists of
characters), dicts are association lists, fallible code returns `Except`.
Comments next to each definition point to the source construct it embeds.
-/

namespace Processor

/-- Code points of Python's whitespace class: the characters matched by `\s`
in `re` (with the default Unicode semantics) and stripped by `str.strip()`. -/
def pyWsCodes : List Nat :=
  [32, 9, 10, 13, 11, 12, 28, 29, 30, 31, 133, 160, 5760,
   8192, 8193, 8194, 8195, 8196, 8197, 8198, 8199, 8200, 8201, 8202,
   8232, 8233, 8239, 8287, 12288]

/-- Python whitespace test (`\s` / `str.isspace`). -/
def pyWs (c : Char) : Bool := pyWsCodes.contains c.toNat

/-- Greedy `\S+` tail: drop the maximal run of non-whitespace characters. -/
def dropNonWs (l : List Char) : List Char := l.dropWhile (fun c => !(pyWs c))

/-- Greedy `[^ ]+` tail: drop the maximal run of non-space characters. -/
def dropNonSp (l : List Char) : List Char := l.dropWhile (fun c => !(c == ' '))

/-- The alternative `http\S+` after its leading `h`: requires `ttp` and at
least one non-whitespace character, then consumes greedily. -/
def matchH : List Char → Option (List Char)
  | d1 :: d2 :: d3 :: d :: t =>
    if d1 = 't' ∧ d2 = 't' ∧ d3 = 'p' ∧ pyWs d = false then some (dropNonWs t) else none
  | _ => none

/-- The alternative `@[^\s]+` after its leading `@`. -/
def matchMention : List Char → Option (List Char)
  | d :: t => if pyWs d = false then some (dropNonWs t) else none
  | [] => none

/-- The alternative `\^[^ ]+` after its leading `^`. -/
def matchCaret : List Char → Option (List Char)
  | d :: t => if d = ' ' then none else some (dropNonSp t)
  | [] => none

/-- One attempt of the pattern `http\S+|@[^\s]+|\^[^ ]+` at the head of the
list, returning the remainder after the (greedy) match.  The three
alternatives start with distinct characters, so dispatching on the first
character is equivalent to `re`'s left-to-right alternation. -/
def matchAt : List Char → Option (List Char)
  | [] => none
  | c :: cs =>
    if c = 'h' then matchH cs
    else if c = '@' then matchMention cs
    else if c = '^' then matchCaret cs
    else none

theorem dropNonWs_length_le (l : List Char) : (dropNonWs l).length ≤ l.length :=
  (List.dropWhile_suffix _).sublist.length_le

theorem dropNonSp_length_le (l : List Char) : (dropNonSp l).length ≤ l.length :=
  (List.dropWhile_suffix _).sublist.length_le

theorem matchH_length {l r : List Char} (h : matchH l = some r) : r.length ≤ l.length := by
  unfold matchH at h
  split at h
  · split at h
    · cases h
      exact le_trans (dropNonWs_length_le _) (by simp; omega)
    · cases h
  · cases h

theorem matchMention_length {l r : List Char} (h : matchMention l = some r) :
    r.length ≤ l.length := by
  unfold matchMention at h
  split at h
  · split at h
    · cases h
      exact le_trans (dropNonWs_length_le _) (by simp)
    · cases h
  · cases h

theorem matchCaret_length {l r : List Char} (h : matchCaret l = some r) :
    r.length ≤ l.length := by
  unfold matchCaret at h
  split at h
  · split at h
    · cases h
    · cases h
      exact le_trans (dropNonSp_length_le _) (by simp)
  · cases h

theorem matchAt_length {l r : List Char} (h : matchAt l = some r) : r.length < l.length := by
  unfold matchAt at h
  match l with
  | [] => cases h
  | c :: cs =>
    simp only at h
    split at h
    · exact Nat.lt_succ_of_le (matchH_length h)
    · split at h
      · exact Nat.lt_succ_of_le (matchMention_length h)
      · split at h
        · exact Nat.lt_succ_of_le (matchCaret_length h)
        · cases h

/-- `re.sub(r"http\S+|@[^\s]+|\^[^ ]+", "", text)`: scan left to right,
deleting every match, resuming the scan right after each match. -/
def subPat : List Char → List Char
  | [] => []
  | c :: cs =>
    match h : matchAt (c :: cs) with
    | some r => subPat r
    | none => c :: subPat cs
termination_by l => l.length
decreasing_by
  · exact matchAt_length h
  · simp

/-- `re.sub(r"\s+", " ", text)`: replace each maximal whitespace run by a
single space. -/
def collapseL : List Char → List Char
  | [] => []
  | c :: cs =>
    if pyWs c then ' ' :: collapseL (cs.dropWhile pyWs) else c :: collapseL cs
termination_by l => l.length
decreasing_by
  · exact Nat.lt_succ_of_le (List.dropWhile_suffix _).sublist.length_le
  · simp

/-- Remove trailing Python whitespace (the right half of `str.strip()`). -/
def stripRight : List Char → List Char
  | [] => []
  | c :: cs =>
    match stripRight cs with
    | [] => if pyWs c then [] else [c]
    | d :: ds => c :: d :: ds

/-- `str.strip()` on a character list. -/
def stripL (l : List Char) : List Char := stripRight (l.dropWhile pyWs)

/-- `Processor.clean_text`:
`text = re.sub(r"http\S+|@[^\s]+|\^[^ ]+", "", text)` followed by
`re.sub(r"\s+", " ", text).strip()`. -/
def clean_text (s : String) : String := ⟨stripL (collapseL (subPat s.data))⟩

/-- `str.strip()` (used for the truthiness test `summary.strip()`). -/
def pyStrip (s : String) : String := ⟨stripL s.data⟩

/-- Python exceptions the processing pipeline can raise.  The spec names
`json.JSONDecodeError` "MalformedMetadataError" and the `KeyError` of a
missing required field "MissingFieldError"; `missingColumn` is the
`ValueError` that `datasets.Dataset.remove_columns` raises for a column
absent from the schema. -/
inductive Err where
  | malformedMetadata
  | keyError (k : String)
  | attributeError
  | typeError
  | indexError
  | missingColumn (k : String)
deriving DecidableEq, Repr

/-! ### JSON values and `json.loads`

`Processor.extract_summary` calls `json.loads`; we embed Python's JSON
reader.  Objects keep their members in parse order (duplicate keys are
resolved to the last occurrence on lookup, as `dict` insertion does). -/

inductive Json where
  | null
  | bool (b : Bool)
  | num (token : String)
  | str (s : String)
  | arr (elems : List Json)
  | obj (members : List (String × Json))
deriving Repr

/-- JSON inter-token whitespace (`json` accepts space, tab, newline, CR). -/
def jsonWs (c : Char) : Bool := [' ', '\t', '\n', '\r'].contains c

def skipJsonWs (l : List Char) : List Char := l.dropWhile jsonWs

def hexVal (c : Char) : Option Nat :=
  if '0' ≤ c ∧ c ≤ '9' then some (c.toNat - 48)
  else if 'a' ≤ c ∧ c ≤ 'f' then some (c.toNat - 87)
  else if 'A' ≤ c ∧ c ≤ 'F' then some (c.toNat - 70)
  else none

def parseHex4 : List Char → Option (Nat × List Char)
  | a :: b :: c :: d :: r => do
    let va ← hexVal a
    let vb ← hexVal b
    let vc ← hexVal c
    let vd ← hexVal d
    some (((va * 16 + vb) * 16 + vc) * 16 + vd, r)
  | _ => none

/-- Body of a JSON string literal, after the opening quote.  Strict mode:
raw control characters are rejected; `\uXXXX` escapes combine surrogate
pairs (a lone surrogate, which Lean's `Char` cannot carry, is replaced by
U+FFFD). -/
def parseStrGo : Nat → List Char → List Char → Option (String × List Char)
  | 0, _, _ => none
  | fuel + 1, l, acc =>
    match l with
    | [] => none
    | c :: r =>
      if c = '"' then some (⟨acc.reverse⟩, r)
      else if c = '\\' then
        match r with
        | [] => none
        | e :: r2 =>
          if e = '"' then parseStrGo fuel r2 ('"' :: acc)
          else if e = '\\' then parseStrGo fuel r2 ('\\' :: acc)
          else if e = '/' then parseStrGo fuel r2 ('/' :: acc)
          else if e = 'b' then parseStrGo fuel r2 ('\x08' :: acc)
          else if e = 'f' then parseStrGo fuel r2 ('\x0c' :: acc)
          else if e = 'n' then parseStrGo fuel r2 ('\n' :: acc)
          else if e = 'r' then parseStrGo fuel r2 ('\r' :: acc)
          else if e = 't' then parseStrGo fuel r2 ('\t' :: acc)
          else if e = 'u' then
            match parseHex4 r2 with
            | none => none
            | some (n, r3) =>
              if 0xD800 ≤ n ∧ n ≤ 0xDBFF then
                match r3 with
                | '\\' :: 'u' :: r4 =>
                  match parseHex4 r4 with
                  | some (m, r5) =>
                    if 0xDC00 ≤ m ∧ m ≤ 0xDFFF then
                      parseStrGo fuel r5
                        (Char.ofNat (0x10000 + (n - 0xD800) * 0x400 + (m - 0xDC00)) :: acc)
                    else parseStrGo fuel r3 ('\uFFFD' :: acc)
                  | none => parseStrGo fuel r3 ('\uFFFD' :: acc)
                | _ => parseStrGo fuel r3 ('\uFFFD' :: acc)
              else if 0xDC00 ≤ n ∧ n ≤ 0xDFFF then parseStrGo fuel r3 ('\uFFFD' :: acc)
              else parseStrGo fuel r3 (Char.ofNat n :: acc)
          else none
      else if c.toNat < 32 then none
      else parseStrGo fuel r (c :: acc)

def parseStr (l : List Char) : Option (String × List Char) :=
  parseStrGo (l.length + 1) l []

/-- A JSON number token (maximal munch, as the `json` module's regex). -/
def parseNumber (l : List Char) : Option (Json × List Char) :=
  let sl : List Char × List Char := match l with
    | '-' :: r => (['-'], r)
    | _ => ([], l)
  let sign := sl.1
  let l1 := sl.2
  match l1 with
  | [] => none
  | c :: _ =>
    if ¬ c.isDigit then none
    else
      let il : List Char × List Char :=
        if c = '0' then (['0'], l1.tail) else l1.span Char.isDigit
      let ip := il.1
      let l2 := il.2
      let fl : List Char × List Char := match l2 with
        | '.' :: r =>
          match r.span Char.isDigit with
          | ([], _) => ([], l2)
          | (ds, r2) => ('.' :: ds, r2)
        | _ => ([], l2)
      let fp := fl.1
      let l3 := fl.2
      let el : List Char × List Char := match l3 with
        | e :: rest =>
          if e = 'e' ∨ e = 'E' then
            let srl : List Char × List Char := match rest with
              | s :: r2 => if s = '+' ∨ s = '-' then ([s], r2) else ([], rest)
              | [] => ([], rest)
            match srl.2.span Char.isDigit with
            | ([], _) => ([], l3)
            | (ds, r3) => (e :: (srl.1 ++ ds), r3)
          else ([], l3)
        | [] => ([], l3)
      some (.num ⟨sign ++ ip ++ fp ++ el.1⟩, el.2)

mutual

/-- One JSON value (Python `json` grammar, including the non-standard
`NaN` / `Infinity` / `-Infinity` accepted by default). -/
def parseValue : Nat → List Char → Option (Json × List Char)
  | 0, _ => none
  | fuel + 1, l =>
    match skipJsonWs l with
    | '\x7b' :: r => parseObjBody fuel r
    | '[' :: r => parseArrBody fuel r
    | '"' :: r => (parseStr r).map (fun p => (Json.str p.1, p.2))
    | 't' :: 'r' :: 'u' :: 'e' :: r => some (.bool true, r)
    | 'f' :: 'a' :: 'l' :: 's' :: 'e' :: r => some (.bool false, r)
    | 'n' :: 'u' :: 'l' :: 'l' :: r => some (.null, r)
    | 'N' :: 'a' :: 'N' :: r => some (.num "NaN", r)
    | 'I' :: 'n' :: 'f' :: 'i' :: 'n' :: 'i' :: 't' :: 'y' :: r => some (.num "Infinity", r)
    | '-' :: 'I' :: 'n' :: 'f' :: 'i' :: 'n' :: 'i' :: 't' :: 'y' :: r =>
      some (.num "-Infinity", r)
    | s => parseNumber s

def parseObjBody : Nat → List Char → Option (Json × List Char)
  | 0, _ => none
  | fuel + 1, l =>
    match skipJsonWs l with
    | '\x7d' :: r => some (.obj [], r)
    | _ => parseMembers fuel l []

def parseMembers : Nat → List Char → List (String × Json) → Option (Json × List Char)
  | 0, _, _ => none
  | fuel + 1, l, acc =>
    match skipJsonWs l with
    | '"' :: r =>
      match parseStr r with
      | none => none
      | some (key, r2) =>
        match skipJsonWs r2 with
        | ':' :: r3 =>
          match parseValue fuel r3 with
          | none => none
          | some (v, r4) =>
            match skipJsonWs r4 with
            | ',' :: r5 => parseMembers fuel r5 (acc ++ [(key, v)])
            | '\x7d' :: r5 => some (.obj (acc ++ [(key, v)]), r5)
            | _ => none
        | _ => none
    | _ => none

def parseArrBody : Nat → List Char → Option (Json × List Char)
  | 0, _ => none
  | fuel + 1, l =>
    match skipJsonWs l with
    | ']' :: r => some (.arr [], r)
    | _ => parseItems fuel l []

def parseItems : Nat → List Char → List Json → Option (Json × List Char)
  | 0, _, _ => none
  | fuel + 1, l, acc =>
    match parseValue fuel l with
    | none => none
    | some (v, r) =>
      match skipJsonWs r with
      | ',' :: r2 => parseItems fuel r2 (acc ++ [v])
      | ']' :: r2 => some (.arr (acc ++ [v]), r2)
      | _ => none

end

/-- `json.loads`: parse one document, allow surrounding whitespace, reject
trailing garbage.  `none` is the `json.JSONDecodeError` case.  The fuel is
an upper bound on parser steps; each step consumes input within three
recursive calls, so `3 * length + 8` never runs out. -/
def jsonLoads (s : String) : Option Json :=
  match parseValue (3 * s.length + 8) s.data with
  | some (v, r) => if skipJsonWs r = [] then some v else none
  | none => none

/-! ### The `.get` / truthiness / `join` chain of `extract_summary` -/

/-- Last-occurrence lookup: a later duplicate key overwrites an earlier one
when `json.loads` builds its `dict`. -/
def jlookup (kvs : List (String × Json)) (k : String) : Option Json :=
  kvs.foldl (fun acc p => if p.1 = k then some p.2 else acc) none

/-- Python truthiness of a nonzero number token (`NaN`/`Infinity` are
truthy; a mantissa of zeros is falsy whatever the exponent). -/
def numNonzero (t : String) : Bool :=
  if t.data.contains 'N' ∨ t.data.contains 'I' then true
  else (t.data.takeWhile (fun c => ¬ (c = 'e' ∨ c = 'E'))).any
    (fun c => c.isDigit ∧ c ≠ '0')

/-- Python truthiness of a decoded JSON value. -/
def jtruthy : Json → Bool
  | .null => false
  | .bool b => b
  | .num t => numNonzero t
  | .str s => !(s.data.isEmpty)
  | .arr l => !(l.isEmpty)
  | .obj kvs => !(kvs.isEmpty)

def isJsonStr : Json → Bool
  | .str _ => true
  | _ => false

def jsonStrVal : Json → String
  | .str s => s
  | _ => ""

/-- `" ".join(x)`: requires an iterable of strings.  A string joins its
characters, a dict joins its keys; anything else raises `TypeError`. -/
def pyJoin : Json → Except Err String
  | .arr ys =>
    if ys.all isJsonStr then .ok (" ".intercalate (ys.map jsonStrVal))
    else .error .typeError
  | .str s => .ok (" ".intercalate (s.data.map (fun c => String.mk [c])))
  | .obj kvs => .ok (" ".intercalate ((kvs.map Prod.fst).dedup))
  | _ => .error .typeError

/-- `" ".join(abstractive[0])`: subscripting then joining. -/
def joinFirst : Json → Except Err String
  | .arr [] => .error .indexError
  | .arr (x :: _) => pyJoin x
  | .str s =>
    match s.data with
    | [] => .error .indexError
    | c :: _ => pyJoin (.str ⟨[c]⟩)
  | .obj _ => .error (.keyError "0")
  | _ => .error .typeError

/-- `Processor.extract_summary`:
`summaries = json.loads(original_info).get("summaries", {})`,
`abstractive = summaries.get("abstractive_summaries", [])`,
`return " ".join(abstractive[0]) if abstractive else ""`. -/
def extract_summary (original_info : String) : Except Err String :=
  match jsonLoads original_info with
  | none => .error .malformedMetadata
  | some top =>
    match top with
    | .obj kvs =>
      match (jlookup kvs "summaries").getD (.obj []) with
      | .obj kvs2 =>
        let abstractive := (jlookup kvs2 "abstractive_summaries").getD (.arr [])
        if jtruthy abstractive then joinFirst abstractive else .ok ""
      | _ => .error .attributeError
    | _ => .error .attributeError

/-! ### Conversation formatting and prompt assembly -/

/-- One conversation turn: the dataset's
`\x7b"user utterance": ..., "system response": ...\x7d` dicts. -/
structure Turn where
  userUtterance : String
  systemResponse : String
deriving DecidableEq, Repr

/-- `Processor.format_conversation`:
`"\n".join(f"user: \x7bclean(turn['user utterance'])\x7d\nagent: \x7bclean(turn['system response'])\x7d" for turn in log)`. -/
def format_conversation (log : List Turn) : String :=
  "\n".intercalate (log.map fun t =>
    "user: " ++ clean_text t.userUtterance ++ "\nagent: " ++ clean_text t.systemResponse)

/-- `Processor.DEFAULT_SYSTEM_PROMPT`. -/
def DEFAULT_SYSTEM_PROMPT : String :=
  "Summarize this conversation between a human and AI assistant, capturing key points and maintaining context."

/-- `Processor.generate_prompt`: the response part is
`f"### Response:\n\x7bsummary\x7d" if summary else "### Response:\n"` —
Python truthiness, so `None` and `""` both give the bare header. -/
def generate_prompt (system_prompt conversation : String) (summary : Option String) : String :=
  let response_part : String :=
    match summary with
    | some s => if s = "" then "### Response:\n" else "### Response:\n" ++ s
    | none => "### Response:\n"
  "### Instruction: " ++ system_prompt ++ "\n\n### Input:\n" ++ conversation ++ "\n\n" ++
    response_part

/-! ### Records and `process_sample` -/

/-- A column value of a raw record; fields other than `log` and
`original dialog info` are opaque (`vOther`), tokenizer outputs are
integer arrays (`vToks`). -/
inductive Val where
  | vStr (s : String)
  | vTurns (ts : List Turn)
  | vOther (n : Nat)
  | vToks (l : List Nat)
deriving DecidableEq, Repr

/-- A raw record: a dict from column name to value. -/
abbrev Row := List (String × Val)

/-- Dict lookup (`sample[key]` / `sample.get(key)`). -/
def lookupRow : Row → String → Option Val
  | [], _ => none
  | (k, v) :: r, key => if key = k then some v else lookupRow r key

/-- The processed record `\x7bconversation, summary, text\x7d`. -/
structure Processed where
  conversation : String
  summary : String
  text : String
deriving DecidableEq, Repr

/-- `sample.get("log", [])`: a missing `log` silently defaults to the empty
list; a value of the wrong shape makes the turn iteration raise. -/
def getLog (sample : Row) : Except Err (List Turn) :=
  match lookupRow sample "log" with
  | none => .ok []
  | some (.vTurns ts) => .ok ts
  | some _ => .error .typeError

/-- `sample["original dialog info"]`: raises `KeyError` when absent
(the spec's MissingFieldError); `json.loads` needs a string. -/
def getInfo (sample : Row) : Except Err String :=
  match lookupRow sample "original dialog info" with
  | none => .error (.keyError "original dialog info")
  | some (.vStr s) => .ok s
  | some _ => .error .typeError

/-- `Processor.process_sample`:
`conversation = format_conversation(sample.get("log", []))`,
`summary = extract_summary(sample["original dialog info"])`, and the
prompt gets the summary only if `summary.strip()` is truthy. -/
def process_sample (system_prompt : String) (sample : Row) : Except Err Processed :=
  match getLog sample with
  | .error e => .error e
  | .ok log =>
    let conversation := format_conversation log
    match getInfo sample with
    | .error e => .error e
    | .ok info =>
      match extract_summary info with
      | .error e => .error e
      | .ok summary =>
        .ok { conversation := conversation
              summary := summary
              text := generate_prompt system_prompt conversation
                (if pyStrip summary = "" then none else some summary) }

/-! ### Dataset-level pipeline (`process_dataset`)

`datasets.Dataset` is modelled as a list of rows; `DatasetDict` as a list
of named splits.  `Dataset.map` with a dict-returning function merges the
returned columns into each example; `remove_columns` raises for a column
that is not in the schema; both `map`s are fail-fast. -/

/-- `Processor.COLUMNS_TO_REMOVE`. -/
def COLUMNS_TO_REMOVE : List String :=
  ["original dialog id", "new dialog id", "dialog index", "original dialog info", "log",
   "prompt"]

/-- Set (add or overwrite) one column of a row. -/
def setKey (r : Row) (k : String) (v : Val) : Row :=
  (k, v) :: r.filter (fun p => ¬ p.1 = k)

/-- Fail-fast effectful map, as a raising `Dataset.map` behaves. -/
def exMapM (f : α → Except Err β) : List α → Except Err (List β)
  | [] => .ok []
  | a :: as =>
    match f a with
    | .error e => .error e
    | .ok b =>
      match exMapM f as with
      | .error e => .error e
      | .ok bs => .ok (b :: bs)

/-- 64-bit linear congruential step, standing in for the library's seeded
generator: the only property the claims use is that it is a deterministic
function of the seed. -/
def lcg (x : Nat) : Nat :=
  (6364136223846793005 * x + 1442695040888963407) % 18446744073709551616

/-- Deterministic Fisher-Yates driven by `lcg`, standing in for
`Dataset.shuffle(seed=seed)` (a deterministic, seed-keyed permutation per
the library contract assumed by the spec). -/
def shuffleGo : Nat → Nat → List α → List α
  | 0, _, _ => []
  | _ + 1, _, [] => []
  | fuel + 1, st, a :: as =>
    let i := st % (a :: as).length
    (a :: as).get ⟨i, Nat.mod_lt _ (Nat.succ_pos _)⟩ ::
      shuffleGo fuel (lcg st) ((a :: as).eraseIdx i)

def shuffle (seed : Nat) (l : List α) : List α := shuffleGo l.length (lcg seed) l

/-- `map(self.process_sample)` on one row: the returned dict is merged
into the example. -/
def procRow (system_prompt : String) (r : Row) : Except Err Row :=
  match process_sample system_prompt r with
  | .error e => .error e
  | .ok p =>
    .ok (setKey (setKey (setKey r "conversation" (.vStr p.conversation))
          "summary" (.vStr p.summary)) "text" (.vStr p.text))

/-- `remove_columns(COLUMNS_TO_REMOVE)`: raises for a missing column,
otherwise drops every named column. -/
def removeColumns (cols : List String) (r : Row) : Except Err Row :=
  match cols.find? (fun c => (lookupRow r c).isNone) with
  | some c => .error (.missingColumn c)
  | none => .ok (r.filter (fun p => ¬ cols.contains p.1))

/-- `map(lambda x: self.tokenizer(x["text"]))`: the tokenizer's output
columns (an opaque collaborator, passed in as `tok`) are merged in. -/
def tokMerge (tok : String → List (String × Val)) (r : Row) : Except Err Row :=
  match lookupRow r "text" with
  | some (.vStr t) => .ok ((tok t).foldl (fun acc kv => setKey acc kv.1 kv.2) r)
  | some _ => .error .typeError
  | none => .error (.keyError "text")

/-- The inner `_process` of `Processor.process_dataset`:
`data.shuffle(seed=self.seed).map(self.process_sample).remove_columns(COLUMNS_TO_REMOVE)`,
then the optional tokenization map. -/
def processSplit (system_prompt : String) (tok : String → List (String × Val))
    (tokenize : Bool) (seed : Nat) (ds : List Row) : Except Err (List Row) :=
  match exMapM (procRow system_prompt) (shuffle seed ds) with
  | .error e => .error e
  | .ok rows =>
    match exMapM (removeColumns COLUMNS_TO_REMOVE) rows with
    | .error e => .error e
    | .ok rows2 => if tokenize then exMapM (tokMerge tok) rows2 else .ok rows2

/-- `Dataset | DatasetDict`. -/
inductive Corpus where
  | single (d : List Row)
  | dict (splits : List (String × List Row))
deriving Repr

/-- `Processor.process_dataset`: dispatch on `DatasetDict`, apply
`_process` to the single split or to every named split. -/
def process_dataset (system_prompt : String) (tok : String → List (String × Val))
    (tokenize : Bool) (seed : Nat) : Corpus → Except Err Corpus
  | .single d => (processSplit system_prompt tok tokenize seed d).map .single
  | .dict kvs =>
    (exMapM (fun kv =>
      (processSplit system_prompt tok tokenize seed kv.2).map (fun d => (kv.1, d))) kvs).map
      .dict

/-! ### Properties of `clean_text` (claim C7)

`noMatch l` says no substring of `l` starting at any position matches the
pattern `http\S+|@[^\s]+|\^[^ ]+`; `allSpace`/`noRun` express that every
whitespace character is a single plain space. -/

/-- No suffix of the list begins with a match of the cleaning pattern,
i.e. the text contains no URL, mention or caret token. -/
def noMatch : List Char → Bool
  | [] => true
  | c :: cs => (matchAt (c :: cs)).isNone && noMatch cs

/-- Every whitespace character is the plain space. -/
def allSpace (l : List Char) : Bool := l.all (fun c => !(pyWs c) || (c == ' '))

/-- No two adjacent whitespace characters. -/
def noRun : List Char → Bool
  | c :: d :: t => (!(pyWs c && pyWs d)) && noRun (d :: t)
  | _ => true

theorem pyWs_space : pyWs ' ' = true := rfl

theorem ne_special_of_pyWs {c : Char} (h : pyWs c = true) :
    c ≠ 'h' ∧ c ≠ '@' ∧ c ≠ '^' := by
  refine ⟨?_, ?_, ?_⟩ <;> rintro rfl <;> exact absurd h (by decide)

theorem dropWhile_head_not {α : Type} (p : α → Bool) :
    ∀ (l : List α) {x : α} {xs : List α}, l.dropWhile p = x :: xs → p x = false
  | [], _, _, h => by cases h
  | a :: l, x, xs, h => by
    by_cases hp : p a
    · rw [List.dropWhile_cons_of_pos hp] at h
      exact dropWhile_head_not p l h
    · rw [List.dropWhile_cons_of_neg hp] at h
      cases h
      exact Bool.of_not_eq_true hp

theorem matchAt_other {c : Char} (h1 : c ≠ 'h') (h2 : c ≠ '@') (h3 : c ≠ '^')
    (cs : List Char) : matchAt (c :: cs) = none := by
  simp [matchAt, h1, h2, h3]

theorem matchAt_ws {c : Char} (h : pyWs c = true) (cs : List Char) :
    matchAt (c :: cs) = none :=
  matchAt_other (ne_special_of_pyWs h).1 (ne_special_of_pyWs h).2.1
    (ne_special_of_pyWs h).2.2 cs

theorem matchAt_http {d : Char} (h : pyWs d = false) (t : List Char) :
    matchAt ('h' :: 't' :: 't' :: 'p' :: d :: t) = some (dropNonWs t) := by
  simp [matchAt, matchH, h]

theorem matchAt_mention {d : Char} (h : pyWs d = false) (t : List Char) :
    matchAt ('@' :: d :: t) = some (dropNonWs t) := by
  simp [matchAt, matchMention, h]

theorem matchAt_caret {d : Char} (h : d ≠ ' ') (t : List Char) :
    matchAt ('^' :: d :: t) = some (dropNonSp t) := by
  simp [matchAt, matchCaret, h]

theorem matchAt_some_inv {l r : List Char} (h : matchAt l = some r) :
    (∃ d t, l = 'h' :: 't' :: 't' :: 'p' :: d :: t ∧ pyWs d = false ∧ r = dropNonWs t) ∨
    (∃ d t, l = '@' :: d :: t ∧ pyWs d = false ∧ r = dropNonWs t) ∨
    (∃ d t, l = '^' :: d :: t ∧ d ≠ ' ' ∧ r = dropNonSp t) := by
  match l with
  | [] => cases h
  | c :: cs =>
    unfold matchAt at h
    simp only at h
    split at h
    · subst c
      unfold matchH at h
      split at h
      next d1 d2 d3 d t =>
        split at h
        next hc =>
          obtain ⟨h1, h2, h3, h4⟩ := hc
          subst h1; subst h2; subst h3
          cases h
          exact Or.inl ⟨d, t, rfl, h4, rfl⟩
        next => cases h
      next => cases h
    · split at h
      · subst c
        unfold matchMention at h
        split at h
        next d t =>
          split at h
          next hd => cases h; exact Or.inr (Or.inl ⟨d, t, rfl, hd, rfl⟩)
          next => cases h
        next => cases h
      · split at h
        · subst c
          unfold matchCaret at h
          split at h
          next d t =>
            split at h
            next => cases h
            next hd => cases h; exact Or.inr (Or.inr ⟨d, t, rfl, hd, rfl⟩)
          next => cases h
        · cases h

theorem matchAt_rest_ws {l r : List Char} (h : matchAt l = some r) :
    r = [] ∨ ∃ d t, r = d :: t ∧ pyWs d = true := by
  rcases matchAt_some_inv h with ⟨d, t, _, _, hr⟩ | ⟨d, t, _, _, hr⟩ | ⟨d, t, _, _, hr⟩ <;>
    subst hr
  · match hu : dropNonWs t with
    | [] => exact Or.inl rfl
    | x :: xs =>
      refine Or.inr ⟨x, xs, rfl, ?_⟩
      have := dropWhile_head_not _ t hu
      simpa using this
  · match hu : dropNonWs t with
    | [] => exact Or.inl rfl
    | x :: xs =>
      refine Or.inr ⟨x, xs, rfl, ?_⟩
      have := dropWhile_head_not _ t hu
      simpa using this
  · match hu : dropNonSp t with
    | [] => exact Or.inl rfl
    | x :: xs =>
      refine Or.inr ⟨x, xs, rfl, ?_⟩
      have := dropWhile_head_not _ t hu
      have hx : x = ' ' := by simpa using this
      rw [hx]
      exact pyWs_space

theorem matchAt_append {l r : List Char} (q : List Char) (h : matchAt l = some r) :
    ∃ r', matchAt (l ++ q) = some r' := by
  rcases matchAt_some_inv h with ⟨d, t, hl, hd, _⟩ | ⟨d, t, hl, hd, _⟩ | ⟨d, t, hl, hd, _⟩ <;>
    subst hl
  · exact ⟨_, matchAt_http hd (t ++ q)⟩
  · exact ⟨_, matchAt_mention hd (t ++ q)⟩
  · exact ⟨_, matchAt_caret hd (t ++ q)⟩

theorem noMatch_cons {c : Char} {cs : List Char} :
    noMatch (c :: cs) = true ↔ matchAt (c :: cs) = none ∧ noMatch cs = true := by
  simp [noMatch, Option.isNone_iff_eq_none]

theorem noMatch_tail {c : Char} {cs : List Char} (h : noMatch (c :: cs) = true) :
    noMatch cs = true := (noMatch_cons.mp h).2

theorem noMatch_dropWhile (p : Char → Bool) :
    ∀ (l : List Char), noMatch l = true → noMatch (l.dropWhile p) = true
  | [], h => h
  | c :: cs, h => by
    by_cases hp : p c
    · rw [List.dropWhile_cons_of_pos hp]
      exact noMatch_dropWhile p cs (noMatch_tail h)
    · rwa [List.dropWhile_cons_of_neg hp]

theorem noMatch_append_left {q : List Char} :
    ∀ (l : List Char), noMatch (l ++ q) = true → noMatch l = true
  | [], _ => rfl
  | c :: cs, h => by
    rw [List.cons_append] at h
    obtain ⟨h1, h2⟩ := noMatch_cons.mp h
    refine noMatch_cons.mpr ⟨?_, noMatch_append_left cs h2⟩
    match hm : matchAt (c :: cs) with
    | none => rfl
    | some r =>
      obtain ⟨r', hr'⟩ := matchAt_append q hm
      rw [List.cons_append] at hr'
      rw [hr'] at h1
      cases h1

theorem stripRight_append : ∀ l : List Char, ∃ q, l = stripRight l ++ q
  | [] => ⟨[], rfl⟩
  | c :: cs => by
    obtain ⟨q, hq⟩ := stripRight_append cs
    match h : stripRight cs with
    | [] =>
      rw [stripRight, h]
      by_cases hc : pyWs c
      · simp only [hc, if_pos]
        exact ⟨c :: cs, rfl⟩
      · simp only [hc, if_neg, Bool.false_eq_true, not_false_iff]
        exact ⟨cs, rfl⟩
    | d :: ds =>
      rw [stripRight, h]
      rw [h] at hq
      exact ⟨q, by rw [hq]; rfl⟩

theorem noMatch_stripRight {l : List Char} (h : noMatch l = true) :
    noMatch (stripRight l) = true := by
  obtain ⟨q, hq⟩ := stripRight_append l
  rw [hq] at h
  exact noMatch_append_left _ h

theorem subPat_nil : subPat [] = [] := by simp [subPat]

theorem subPat_cons_some {c : Char} {cs r : List Char} (h : matchAt (c :: cs) = some r) :
    subPat (c :: cs) = subPat r := by
  rw [subPat, h]

theorem subPat_cons_none {c : Char} {cs : List Char} (h : matchAt (c :: cs) = none) :
    subPat (c :: cs) = c :: subPat cs := by
  rw [subPat, h]

theorem subPat_id : ∀ {l : List Char}, noMatch l = true → subPat l = l
  | [], _ => subPat_nil
  | c :: cs, h => by
    obtain ⟨h1, h2⟩ := noMatch_cons.mp h
    rw [subPat_cons_none h1, subPat_id h2]

theorem subPat_head_aux : ∀ (n : Nat) (u : List Char), u.length ≤ n → ∀ {d : Char}
    {w : List Char}, subPat u = d :: w →
    pyWs d = true ∨ ∃ u', u = d :: u' ∧ matchAt u = none ∧ w = subPat u' := by
  intro n
  induction n with
  | zero =>
    intro u hu d w h
    rw [List.length_eq_zero.mp (Nat.le_zero.mp hu), subPat_nil] at h
    cases h
  | succ n ih =>
    intro u hu d w h
    match u with
    | [] => rw [subPat_nil] at h; cases h
    | c :: cs =>
      match hm : matchAt (c :: cs) with
      | some r =>
        rw [subPat_cons_some hm] at h
        have hr : r.length ≤ n := by
          have := matchAt_length hm
          simp only [List.length_cons] at this hu
          omega
        rcases ih r hr h with hws | ⟨u', hu', _, _⟩
        · exact Or.inl hws
        · rcases matchAt_rest_ws hm with hnil | ⟨e, t, het, hews⟩
          · rw [hnil] at hu'; cases hu'
          · rw [het] at hu'
            injection hu' with h1 _
            subst h1
            exact Or.inl hews
      | none =>
        rw [subPat_cons_none hm] at h
        injection h with h1 h2
        subst h1
        exact Or.inr ⟨cs, rfl, rfl, h2.symm⟩

theorem subPat_head {u : List Char} {d : Char} {w : List Char} (h : subPat u = d :: w) :
    pyWs d = true ∨ ∃ u', u = d :: u' ∧ matchAt u = none ∧ w = subPat u' :=
  subPat_head_aux u.length u le_rfl h

theorem matchAt_h_none {v : List Char}
    (hv : ¬ ∃ d t, v = 't' :: 't' :: 'p' :: d :: t ∧ pyWs d = false) :
    matchAt ('h' :: v) = none := by
  match hm : matchAt ('h' :: v) with
  | none => rfl
  | some r =>
    rcases matchAt_some_inv hm with ⟨d, t, he, hd, _⟩ | ⟨d, t, he, _, _⟩ | ⟨d, t, he, _, _⟩
    · injection he with _ he'
      exact absurd ⟨d, t, he', hd⟩ hv
    · injection he with hh _
      exact absurd hh (by decide)
    · injection he with hh _
      exact absurd hh (by decide)

theorem matchAt_at_none_inv {cs : List Char} (h : matchAt ('@' :: cs) = none) :
    cs = [] ∨ ∃ d t, cs = d :: t ∧ pyWs d = true := by
  match cs with
  | [] => exact Or.inl rfl
  | d :: t =>
    refine Or.inr ⟨d, t, rfl, ?_⟩
    by_contra hd
    rw [matchAt_mention (Bool.not_eq_true _ ▸ hd) t] at h
    cases h

theorem matchAt_caret_none_inv {cs : List Char} (h : matchAt ('^' :: cs) = none) :
    cs = [] ∨ ∃ t, cs = ' ' :: t := by
  match cs with
  | [] => exact Or.inl rfl
  | d :: t =>
    refine Or.inr ⟨t, ?_⟩
    by_cases hd : d = ' '
    · rw [hd]
    · rw [matchAt_caret hd t] at h
      cases h

theorem noMatch_subPat_aux : ∀ (n : Nat) (u : List Char), u.length ≤ n →
    noMatch (subPat u) = true := by
  intro n
  induction n with
  | zero =>
    intro u hu
    rw [List.length_eq_zero.mp (Nat.le_zero.mp hu), subPat_nil]
    rfl
  | succ n ih =>
    intro u hu
    match u with
    | [] => rw [subPat_nil]; rfl
    | c :: cs =>
      match hm : matchAt (c :: cs) with
      | some r =>
        rw [subPat_cons_some hm]
        have hr : r.length ≤ n := by
          have := matchAt_length hm
          simp only [List.length_cons] at this hu
          omega
        exact ih r hr
      | none =>
        rw [subPat_cons_none hm]
        have hcs : cs.length ≤ n := by
          simp only [List.length_cons] at hu
          omega
        refine noMatch_cons.mpr ⟨?_, ih cs hcs⟩
        by_cases hc : c = 'h'
        · subst hc
          apply matchAt_h_none
          rintro ⟨d, t, hst, hd⟩
          rcases subPat_head hst with hws | ⟨cs1, hcs1, _, hw1⟩
          · exact absurd hws (by decide)
          rcases subPat_head hw1.symm with hws | ⟨cs2, hcs2, _, hw2⟩
          · exact absurd hws (by decide)
          rcases subPat_head hw2.symm with hws | ⟨cs3, hcs3, _, hw3⟩
          · exact absurd hws (by decide)
          rcases subPat_head hw3.symm with hws | ⟨cs4, hcs4, _, _⟩
          · rw [hws] at hd; cases hd
          · rw [hcs1, hcs2, hcs3, hcs4] at hm
            rw [matchAt_http hd cs4] at hm
            cases hm
        · by_cases hc2 : c = '@'
          · subst hc2
            rcases matchAt_at_none_inv hm with hnil | ⟨d, t, hdt, hd⟩
            · rw [hnil, subPat_nil]
              rfl
            · rw [hdt, subPat_cons_none (matchAt_ws hd t)]
              simp [matchAt, matchMention, hd]
          · by_cases hc3 : c = '^'
            · subst hc3
              rcases matchAt_caret_none_inv hm with hnil | ⟨t, ht⟩
              · rw [hnil, subPat_nil]
                rfl
              · rw [ht, subPat_cons_none (matchAt_ws pyWs_space t)]
                simp [matchAt, matchCaret]
            · match hs : subPat cs with
              | [] => exact matchAt_other hc hc2 hc3 []
              | x :: w => exact matchAt_other hc hc2 hc3 (x :: w)

theorem noMatch_subPat (u : List Char) : noMatch (subPat u) = true :=
  noMatch_subPat_aux u.length u le_rfl

theorem collapseL_nil : collapseL [] = [] := by simp [collapseL]

theorem collapseL_ws {c : Char} {cs : List Char} (h : pyWs c = true) :
    collapseL (c :: cs) = ' ' :: collapseL (cs.dropWhile pyWs) := by
  rw [collapseL]
  simp [h]

theorem collapseL_nws {c : Char} {cs : List Char} (h : pyWs c = false) :
    collapseL (c :: cs) = c :: collapseL cs := by
  rw [collapseL]
  simp [h]

theorem collapseL_head_nws {v w : List Char} {d : Char} (h : collapseL v = d :: w)
    (hd : pyWs d = false) : ∃ v', v = d :: v' ∧ w = collapseL v' := by
  match v with
  | [] => rw [collapseL_nil] at h; cases h
  | c :: cs =>
    by_cases hc : pyWs c
    · rw [collapseL_ws hc] at h
      injection h with h1 _
      rw [← h1] at hd
      cases hd.symm.trans pyWs_space
    · rw [collapseL_nws (Bool.not_eq_true _ ▸ hc)] at h
      injection h with h1 h2
      subst h1
      exact ⟨cs, rfl, h2.symm⟩

theorem noMatch_collapseL_aux : ∀ (n : Nat) (u : List Char), u.length ≤ n →
    noMatch u = true → noMatch (collapseL u) = true := by
  intro n
  induction n with
  | zero =>
    intro u hu _
    rw [List.length_eq_zero.mp (Nat.le_zero.mp hu), collapseL_nil]
    rfl
  | succ n ih =>
    intro u hu hn
    match u with
    | [] => rw [collapseL_nil]; rfl
    | c :: cs =>
      obtain ⟨hm, hcs⟩ := noMatch_cons.mp hn
      simp only [List.length_cons] at hu
      have hlen : cs.length ≤ n := by omega
      by_cases hc : pyWs c
      · rw [collapseL_ws hc]
        refine noMatch_cons.mpr ⟨matchAt_ws pyWs_space _, ?_⟩
        have hdlen : (cs.dropWhile pyWs).length ≤ n :=
          le_trans (List.dropWhile_suffix _).sublist.length_le hlen
        exact ih _ hdlen (noMatch_dropWhile pyWs cs hcs)
      · have hc' : pyWs c = false := Bool.not_eq_true _ ▸ hc
        rw [collapseL_nws hc']
        refine noMatch_cons.mpr ⟨?_, ih cs hlen hcs⟩
        by_cases h1 : c = 'h'
        · subst h1
          apply matchAt_h_none
          rintro ⟨d, t, hst, hd⟩
          rcases collapseL_head_nws hst (by decide) with ⟨cs1, hcs1, hw1⟩
          rcases collapseL_head_nws hw1.symm (by decide) with ⟨cs2, hcs2, hw2⟩
          rcases collapseL_head_nws hw2.symm (by decide) with ⟨cs3, hcs3, hw3⟩
          rcases collapseL_head_nws hw3.symm hd with ⟨cs4, hcs4, _⟩
          rw [hcs1, hcs2, hcs3, hcs4] at hm
          rw [matchAt_http hd cs4] at hm
          cases hm
        · by_cases h2 : c = '@'
          · subst h2
            rcases matchAt_at_none_inv hm with hnil | ⟨d, t, hdt, hd⟩
            · rw [hnil, collapseL_nil]
              simp [matchAt, matchMention]
            · rw [hdt, collapseL_ws hd]
              simp [matchAt, matchMention, pyWs_space]
          · by_cases h3 : c = '^'
            · subst h3
              rcases matchAt_caret_none_inv hm with hnil | ⟨t, ht⟩
              · rw [hnil, collapseL_nil]
                simp [matchAt, matchCaret]
              · rw [ht, collapseL_ws pyWs_space]
                simp [matchAt, matchCaret]
            · exact matchAt_other h1 h2 h3 _

theorem noMatch_collapseL {u : List Char} (h : noMatch u = true) :
    noMatch (collapseL u) = true :=
  noMatch_collapseL_aux u.length u le_rfl h

theorem allSpace_cons {c : Char} {cs : List Char} :
    allSpace (c :: cs) = true ↔ (pyWs c = true → c = ' ') ∧ allSpace cs = true := by
  simp only [allSpace, List.all_cons, Bool.and_eq_true, Bool.or_eq_true, Bool.not_eq_true',
    beq_iff_eq]
  constructor
  · rintro ⟨h1, h2⟩
    refine ⟨fun hws => ?_, h2⟩
    rcases h1 with h | h
    · rw [hws] at h; cases h
    · exact h
  · rintro ⟨h1, h2⟩
    refine ⟨?_, h2⟩
    by_cases hws : pyWs c = true
    · exact Or.inr (h1 hws)
    · exact Or.inl (Bool.not_eq_true _ ▸ hws)

theorem allSpace_collapseL_aux : ∀ (n : Nat) (u : List Char), u.length ≤ n →
    allSpace (collapseL u) = true := by
  intro n
  induction n with
  | zero =>
    intro u hu
    rw [List.length_eq_zero.mp (Nat.le_zero.mp hu), collapseL_nil]
    rfl
  | succ n ih =>
    intro u hu
    match u with
    | [] => rw [collapseL_nil]; rfl
    | c :: cs =>
      simp only [List.length_cons] at hu
      have hlen : cs.length ≤ n := by omega
      by_cases hc : pyWs c
      · rw [collapseL_ws hc]
        refine allSpace_cons.mpr ⟨fun _ => rfl, ?_⟩
        exact ih (cs.dropWhile pyWs)
          (le_trans (List.dropWhile_suffix pyWs).sublist.length_le hlen)
      · rw [collapseL_nws (Bool.not_eq_true _ ▸ hc)]
        exact allSpace_cons.mpr ⟨fun hws => absurd hws hc, ih cs hlen⟩

theorem allSpace_collapseL (u : List Char) : allSpace (collapseL u) = true :=
  allSpace_collapseL_aux u.length u le_rfl

theorem noRun_cons_cons {c d : Char} {t : List Char} :
    noRun (c :: d :: t) = true ↔
      ¬ (pyWs c = true ∧ pyWs d = true) ∧ noRun (d :: t) = true := by
  simp only [noRun, Bool.and_eq_true, Bool.not_eq_true', Bool.and_eq_false_iff,
    Bool.not_eq_true]
  constructor
  · rintro ⟨h1, h2⟩
    refine ⟨?_, h2⟩
    rintro ⟨ha, hb⟩
    rcases h1 with h | h
    · rw [ha] at h; cases h
    · rw [hb] at h; cases h
  · rintro ⟨h1, h2⟩
    refine ⟨?_, h2⟩
    by_cases ha : pyWs c
    · right
      by_contra hb
      exact h1 ⟨ha, Bool.of_not_eq_false hb⟩
    · left
      exact Bool.not_eq_true _ ▸ ha

theorem noRun_tail {c : Char} {cs : List Char} (h : noRun (c :: cs) = true) :
    noRun cs = true := by
  match cs with
  | [] => rfl
  | d :: t => exact (noRun_cons_cons.mp h).2

theorem noRun_cons_nws {c : Char} {l : List Char} (hc : pyWs c = false)
    (h : noRun l = true) : noRun (c :: l) = true := by
  match l with
  | [] => rfl
  | d :: t =>
    refine noRun_cons_cons.mpr ⟨?_, h⟩
    rintro ⟨ha, _⟩
    rw [hc] at ha
    cases ha

theorem noRun_cons_space {l : List Char} (h : noRun l = true)
    (hl : l = [] ∨ ∃ d t, l = d :: t ∧ pyWs d = false) : noRun (' ' :: l) = true := by
  rcases hl with rfl | ⟨d, t, rfl, hd⟩
  · rfl
  · refine noRun_cons_cons.mpr ⟨?_, h⟩
    rintro ⟨_, hb⟩
    rw [hd] at hb
    cases hb

theorem noRun_collapseL_aux : ∀ (n : Nat) (u : List Char), u.length ≤ n →
    noRun (collapseL u) = true := by
  intro n
  induction n with
  | zero =>
    intro u hu
    rw [List.length_eq_zero.mp (Nat.le_zero.mp hu), collapseL_nil]
    rfl
  | succ n ih =>
    intro u hu
    match u with
    | [] => rw [collapseL_nil]; rfl
    | c :: cs =>
      simp only [List.length_cons] at hu
      have hlen : cs.length ≤ n := by omega
      by_cases hc : pyWs c
      · rw [collapseL_ws hc]
        have hrec := ih (cs.dropWhile pyWs)
          (le_trans (List.dropWhile_suffix pyWs).sublist.length_le hlen)
        refine noRun_cons_space hrec ?_
        match hd : cs.dropWhile pyWs with
        | [] => rw [collapseL_nil]; exact Or.inl rfl
        | e :: es =>
          have he : pyWs e = false := dropWhile_head_not _ cs hd
          rw [collapseL_nws he]
          exact Or.inr ⟨e, collapseL es, rfl, he⟩
      · have hc' : pyWs c = false := Bool.not_eq_true _ ▸ hc
        rw [collapseL_nws hc']
        exact noRun_cons_nws hc' (ih cs hlen)

theorem noRun_collapseL (u : List Char) : noRun (collapseL u) = true :=
  noRun_collapseL_aux u.length u le_rfl

theorem collapseL_id : ∀ {v : List Char}, allSpace v = true → noRun v = true →
    collapseL v = v
  | [], _, _ => collapseL_nil
  | c :: cs, has, hnr => by
    obtain ⟨hsp, hast⟩ := allSpace_cons.mp has
    by_cases hc : pyWs c
    · have hc2 : c = ' ' := hsp hc
      match cs with
      | [] =>
        rw [collapseL_ws hc]
        simp [collapseL_nil, hc2]
      | d :: t =>
        have hd : pyWs d = false := by
          by_contra hd
          exact (noRun_cons_cons.mp hnr).1 ⟨hc, Bool.of_not_eq_false hd⟩
        rw [collapseL_ws hc, List.dropWhile_cons_of_neg (by rw [hd]; simp), hc2,
          collapseL_id hast (noRun_tail hnr)]
    · rw [collapseL_nws (Bool.not_eq_true _ ▸ hc), collapseL_id hast (noRun_tail hnr)]

theorem allSpace_dropWhile (p : Char → Bool) :
    ∀ (l : List Char), allSpace l = true → allSpace (l.dropWhile p) = true
  | [], h => h
  | c :: cs, h => by
    by_cases hp : p c
    · rw [List.dropWhile_cons_of_pos hp]
      exact allSpace_dropWhile p cs (allSpace_cons.mp h).2
    · rwa [List.dropWhile_cons_of_neg hp]

theorem noRun_dropWhile (p : Char → Bool) :
    ∀ (l : List Char), noRun l = true → noRun (l.dropWhile p) = true
  | [], h => h
  | c :: cs, h => by
    by_cases hp : p c
    · rw [List.dropWhile_cons_of_pos hp]
      exact noRun_dropWhile p cs (noRun_tail h)
    · rwa [List.dropWhile_cons_of_neg hp]

theorem stripRight_head_cases (c : Char) (cs : List Char) :
    stripRight (c :: cs) = [] ∨ ∃ ds, stripRight (c :: cs) = c :: ds := by
  rw [stripRight]
  match stripRight cs with
  | [] =>
    by_cases hc : pyWs c
    · simp only [hc, if_pos]
      exact Or.inl trivial
    · simp only [hc, if_neg, Bool.false_eq_true, not_false_iff]
      exact Or.inr ⟨[], rfl⟩
  | d :: ds => exact Or.inr ⟨d :: ds, rfl⟩

theorem allSpace_stripRight : ∀ {l : List Char}, allSpace l = true →
    allSpace (stripRight l) = true
  | [], h => h
  | c :: cs, h => by
    obtain ⟨hsp, hast⟩ := allSpace_cons.mp h
    rw [stripRight]
    match hs : stripRight cs with
    | [] =>
      by_cases hc : pyWs c
      · simp only [hc, if_pos]
        rfl
      · simp only [hc, if_neg, Bool.false_eq_true, not_false_iff]
        exact allSpace_cons.mpr ⟨hsp, rfl⟩
    | d :: ds =>
      have := allSpace_stripRight hast
      rw [hs] at this
      exact allSpace_cons.mpr ⟨hsp, this⟩

theorem noRun_stripRight : ∀ {l : List Char}, noRun l = true →
    noRun (stripRight l) = true
  | [], h => h
  | c :: cs, h => by
    rw [stripRight]
    match hs : stripRight cs with
    | [] =>
      by_cases hc : pyWs c
      · simp only [hc, if_pos]
        rfl
      · simp only [hc, if_neg, Bool.false_eq_true, not_false_iff]
        rfl
    | d :: ds =>
      have hrec := noRun_stripRight (noRun_tail h)
      rw [hs] at hrec
      match cs with
      | [] => cases hs
      | e :: cs2 =>
        rcases stripRight_head_cases e cs2 with hnil | ⟨ds2, hds2⟩
        · rw [hnil] at hs; cases hs
        · rw [hds2] at hs
          injection hs with h1 _
          subst h1
          refine noRun_cons_cons.mpr ⟨?_, hrec⟩
          rintro ⟨ha, hb⟩
          exact (noRun_cons_cons.mp h).1 ⟨ha, hb⟩

theorem stripRight_idem : ∀ (l : List Char), stripRight (stripRight l) = stripRight l
  | [] => rfl
  | c :: cs => by
    rw [stripRight]
    match hs : stripRight cs with
    | [] =>
      by_cases hc : pyWs c
      · simp only [hc, if_pos]
        rfl
      · simp only [hc, if_neg, Bool.false_eq_true, not_false_iff]
        rw [stripRight, stripRight]
        simp only [hc, if_neg, Bool.false_eq_true, not_false_iff]
    | d :: ds =>
      have hrec := stripRight_idem cs
      rw [hs] at hrec
      rw [stripRight, hrec]

theorem dropWhile_stripRight_dropWhile (X : List Char) :
    (stripRight (X.dropWhile pyWs)).dropWhile pyWs = stripRight (X.dropWhile pyWs) := by
  match hd : X.dropWhile pyWs with
  | [] => rfl
  | e :: es =>
    have he : pyWs e = false := dropWhile_head_not _ X hd
    rcases stripRight_head_cases e es with hnil | ⟨ds, hds⟩
    · rw [hnil]
      rfl
    · rw [hds]
      exact List.dropWhile_cons_of_neg (by rw [he]; simp)

theorem clean_text_data (s : String) :
    (clean_text s).data = stripL (collapseL (subPat s.data)) := rfl

theorem noMatch_clean_text (s : String) : noMatch (clean_text s).data = true := by
  rw [clean_text_data]
  unfold stripL
  exact noMatch_stripRight
    (noMatch_dropWhile pyWs _ (noMatch_collapseL (noMatch_subPat _)))

theorem allSpace_clean_text (s : String) : allSpace (clean_text s).data = true := by
  rw [clean_text_data]
  unfold stripL
  exact allSpace_stripRight (allSpace_dropWhile pyWs _ (allSpace_collapseL _))

theorem noRun_clean_text (s : String) : noRun (clean_text s).data = true := by
  rw [clean_text_data]
  unfold stripL
  exact noRun_stripRight (noRun_dropWhile pyWs _ (noRun_collapseL _))

theorem collapseL_clean_text (s : String) :
    collapseL (clean_text s).data = (clean_text s).data :=
  collapseL_id (allSpace_clean_text s) (noRun_clean_text s)

theorem dropWhile_clean_text (s : String) :
    (clean_text s).data.dropWhile pyWs = (clean_text s).data := by
  rw [clean_text_data]
  unfold stripL
  exact dropWhile_stripRight_dropWhile _

theorem stripRight_clean_text (s : String) :
    stripRight (clean_text s).data = (clean_text s).data := by
  rw [clean_text_data]
  unfold stripL
  exact stripRight_idem _

theorem stripL_clean_text (s : String) :
    stripL (clean_text s).data = (clean_text s).data := by
  unfold stripL
  rw [dropWhile_clean_text, stripRight_clean_text]

theorem clean_text_idem (s : String) : clean_text (clean_text s) = clean_text s := by
  show (⟨stripL (collapseL (subPat (clean_text s).data))⟩ : String) = clean_text s
  rw [subPat_id (noMatch_clean_text s), collapseL_clean_text, stripL_clean_text]

/-! ### Line structure of `format_conversation` (claim C6) -/

theorem clean_text_no_nl (s : String) : '\n' ∉ (clean_text s).data := by
  intro hmem
  have h := allSpace_clean_text s
  unfold allSpace at h
  have := List.all_eq_true.mp h _ hmem
  revert this
  decide

/-- The two lines contributed by each turn, in conversation order. -/
def turnLinesL (log : List Turn) : List (List Char) :=
  log.flatMap fun t =>
    [("user: " ++ clean_text t.userUtterance).data,
     ("agent: " ++ clean_text t.systemResponse).data]

theorem intercalate_go_data : ∀ (as : List String) (acc s : String),
    (String.intercalate.go acc s as).data =
      acc.data ++ (as.flatMap fun a => s.data ++ a.data)
  | [], acc, s => by
    rw [String.intercalate.go]
    simp
  | a :: as, acc, s => by
    rw [String.intercalate.go, intercalate_go_data as (acc ++ s ++ a) s]
    simp [String.data_append, List.append_assoc]

theorem list_intercalate_cons {α : Type} (sep x : List α) (xs : List (List α)) :
    List.intercalate sep (x :: xs) = x ++ xs.flatMap fun y => sep ++ y := by
  induction xs generalizing x with
  | nil => simp [List.intercalate]
  | cons y ys ih =>
    rw [List.intercalate, List.intersperse_cons_cons, List.flatten, List.flatten]
    have := ih y
    rw [List.intercalate] at this
    rw [this]
    simp [List.append_assoc]

theorem string_intercalate_data (s : String) : ∀ l : List String,
    (String.intercalate s l).data = List.intercalate s.data (l.map String.data)
  | [] => by
    rw [String.intercalate]
    simp [List.intercalate]
  | a :: as => by
    rw [String.intercalate, intercalate_go_data, List.map_cons, list_intercalate_cons]
    simp [List.flatMap_map]

theorem intercalate_pairs_flatMap {α : Type} (sep : α) :
    ∀ ps : List (List α × List α),
    (ps.flatMap fun p => [p.1, p.2]).flatMap (fun y => sep :: y) =
      (ps.map fun p => p.1 ++ sep :: p.2).flatMap (fun y => sep :: y)
  | [] => rfl
  | p :: ps => by
    simp only [List.flatMap_cons, List.map_cons, List.flatMap_append, List.flatMap_nil,
      List.append_nil]
    rw [intercalate_pairs_flatMap sep ps]
    simp [List.append_assoc]

theorem intercalate_nl_pairs (ps : List (List Char × List Char)) :
    List.intercalate ['\n'] (ps.flatMap fun p => [p.1, p.2]) =
    List.intercalate ['\n'] (ps.map fun p => p.1 ++ '\n' :: p.2) := by
  match ps with
  | [] => rfl
  | p :: ps =>
    rw [List.flatMap_cons, List.map_cons]
    simp only [List.cons_append, List.nil_append]
    rw [list_intercalate_cons, list_intercalate_cons, List.flatMap_cons]
    have := intercalate_pairs_flatMap '\n' ps
    simp only [List.singleton_append] at this ⊢
    rw [this]
    simp [List.append_assoc]



theorem block_data (t : Turn) :
    ("user: " ++ clean_text t.userUtterance ++ "\nagent: " ++ clean_text t.systemResponse).data
      = ("user: " ++ clean_text t.userUtterance).data ++ '\n' ::
        ("agent: " ++ clean_text t.systemResponse).data := by
  have h : ("\nagent: " : String).data = '\n' :: ("agent: " : String).data := rfl
  simp only [String.data_append, h, List.append_assoc, List.cons_append]

theorem format_conversation_data (log : List Turn) :
    (format_conversation log).data = List.intercalate ['\n'] (turnLinesL log) := by
  have h2 : turnLinesL log =
      (log.map fun t => (("user: " ++ clean_text t.userUtterance).data,
        ("agent: " ++ clean_text t.systemResponse).data)).flatMap fun p => [p.1, p.2] := by
    induction log with
    | nil => rfl
    | cons t ts ih =>
      simp only [turnLinesL, List.flatMap_cons, List.map_cons] at ih ⊢
      rw [ih]
  have h1 : (log.map fun t =>
      "user: " ++ clean_text t.userUtterance ++ "\nagent: " ++ clean_text t.systemResponse).map
        String.data =
      (log.map fun t => (("user: " ++ clean_text t.userUtterance).data,
        ("agent: " ++ clean_text t.systemResponse).data)).map fun p => p.1 ++ '\n' :: p.2 := by
    clear h2
    induction log with
    | nil => rfl
    | cons t ts ih =>
      simp only [List.map_cons, ih, List.cons.injEq, and_true]
      exact block_data t
  rw [format_conversation, string_intercalate_data, h1, h2, intercalate_nl_pairs]

theorem turnLinesL_length (log : List Turn) : (turnLinesL log).length = 2 * log.length := by
  induction log with
  | nil => rfl
  | cons t ts ih =>
    simp only [turnLinesL, List.flatMap_cons, List.length_append, List.length_cons,
      List.length_nil, List.length_cons] at ih ⊢
    omega

theorem turnLinesL_no_nl (log : List Turn) : ∀ l ∈ turnLinesL log, '\n' ∉ l := by
  intro l hl
  simp only [turnLinesL, List.mem_flatMap] at hl
  obtain ⟨t, _, hmem⟩ := hl
  have huser : '\n' ∉ ("user: " ++ clean_text t.userUtterance).data := by
    rw [String.data_append]
    intro hc
    rcases List.mem_append.mp hc with h | h
    · revert h; decide
    · exact clean_text_no_nl _ h
  have hagent : '\n' ∉ ("agent: " ++ clean_text t.systemResponse).data := by
    rw [String.data_append]
    intro hc
    rcases List.mem_append.mp hc with h | h
    · revert h; decide
    · exact clean_text_no_nl _ h
  simp only [List.mem_cons, List.not_mem_nil, or_false] at hmem
  rcases hmem with rfl | rfl
  · exact huser
  · exact hagent




theorem exMapM_ok_mem {α β : Type} {f : α → Except Err β} :
    ∀ {l : List α} {out : List β}, exMapM f l = .ok out → ∀ o ∈ out, ∃ a ∈ l, f a = .ok o := by
  intro l
  induction l with
  | nil =>
    intro out h o ho
    unfold exMapM at h
    cases h
    simp at ho
  | cons a as ih =>
    intro out h o ho
    unfold exMapM at h
    cases hfa : f a with
    | error e => rw [hfa] at h; cases h
    | ok b =>
      rw [hfa] at h
      cases hrest : exMapM f as with
      | error e => rw [hrest] at h; cases h
      | ok bs =>
        rw [hrest] at h
        cases h
        rcases List.mem_cons.mp ho with rfl | hmem
        · exact ⟨a, List.mem_cons_self _ _, hfa⟩
        · obtain ⟨a', ha', hfa'⟩ := ih hrest o hmem
          exact ⟨a', List.mem_cons_of_mem _ ha', hfa'⟩

theorem exMapM_ok_forall {α β : Type} {f : α → Except Err β} :
    ∀ {l : List α} {out : List β}, exMapM f l = .ok out → ∀ a ∈ l, ∃ o ∈ out, f a = .ok o := by
  intro l
  induction l with
  | nil => intro out _ a ha; simp at ha
  | cons a as ih =>
    intro out h x hx
    unfold exMapM at h
    cases hfa : f a with
    | error e => rw [hfa] at h; cases h
    | ok b =>
      rw [hfa] at h
      cases hrest : exMapM f as with
      | error e => rw [hrest] at h; cases h
      | ok bs =>
        rw [hrest] at h
        cases h
        rcases List.mem_cons.mp hx with rfl | hmem
        · exact ⟨b, List.mem_cons_self _ _, hfa⟩
        · obtain ⟨o, ho, hfo⟩ := ih hrest x hmem
          exact ⟨o, List.mem_cons_of_mem _ ho, hfo⟩

theorem exMapM_error_mem {α β : Type} {f : α → Except Err β} :
    ∀ {l : List α} {e : Err}, exMapM f l = .error e → ∃ a ∈ l, f a = .error e := by
  intro l
  induction l with
  | nil => intro e h; unfold exMapM at h; cases h
  | cons a as ih =>
    intro e h
    unfold exMapM at h
    cases hfa : f a with
    | error e' =>
      rw [hfa] at h
      cases h
      exact ⟨a, List.mem_cons_self _ _, hfa⟩
    | ok b =>
      rw [hfa] at h
      cases hrest : exMapM f as with
      | error e' =>
        rw [hrest] at h
        cases h
        obtain ⟨a', ha', hfa'⟩ := ih hrest
        exact ⟨a', List.mem_cons_of_mem _ ha', hfa'⟩
      | ok bs => rw [hrest] at h; cases h

theorem exMapM_get {α β : Type} {f : α → Except Err β} :
    ∀ {l : List α} {out : List β}, exMapM f l = .ok out →
    out.length = l.length ∧ ∀ (i : Nat) (hl : i < l.length) (ho : i < out.length),
      f (l.get ⟨i, hl⟩) = .ok (out.get ⟨i, ho⟩) := by
  intro l
  induction l with
  | nil =>
    intro out h
    unfold exMapM at h
    cases h
    exact ⟨rfl, fun i hl => absurd hl (by simp)⟩
  | cons a as ih =>
    intro out h
    unfold exMapM at h
    cases hfa : f a with
    | error e => rw [hfa] at h; cases h
    | ok b =>
      rw [hfa] at h
      cases hrest : exMapM f as with
      | error e => rw [hrest] at h; cases h
      | ok bs =>
        rw [hrest] at h
        cases h
        obtain ⟨hlen, hget⟩ := ih hrest
        refine ⟨by simp [hlen], ?_⟩
        intro i hl ho
        match i with
        | 0 => exact hfa
        | i + 1 =>
          simp only [List.length_cons] at hl ho
          exact hget i (by omega) (by omega)

theorem perm_get_cons_eraseIdx {α : Type} : ∀ (l : List α) (i : Nat) (h : i < l.length),
    List.Perm (l.get ⟨i, h⟩ :: l.eraseIdx i) l
  | a :: as, 0, _ => List.Perm.refl _
  | a :: as, i + 1, h => by
    have hi : i < as.length := by simp only [List.length_cons] at h; omega
    have step := perm_get_cons_eraseIdx as i hi
    have h1 : (a :: as).get ⟨i + 1, h⟩ :: (a :: as).eraseIdx (i + 1)
        = as.get ⟨i, hi⟩ :: a :: as.eraseIdx i := rfl
    rw [h1]
    exact (List.Perm.swap a (as.get ⟨i, hi⟩) _).trans (step.cons a)

theorem shuffleGo_perm {α : Type} : ∀ (fuel st : Nat) (l : List α), l.length = fuel →
    List.Perm (shuffleGo fuel st l) l := by
  intro fuel
  induction fuel with
  | zero =>
    intro st l hl
    rw [List.length_eq_zero.mp hl]
    exact List.Perm.refl _
  | succ n ih =>
    intro st l hl
    match l with
    | [] => cases hl
    | a :: as =>
      rw [shuffleGo]
      have hi : st % (a :: as).length < (a :: as).length :=
        Nat.mod_lt _ (Nat.succ_pos _)
      have hlen : ((a :: as).eraseIdx (st % (a :: as).length)).length = n := by
        rw [List.length_eraseIdx_of_lt hi]
        simp only [List.length_cons] at hl ⊢
        omega
      exact ((ih (lcg st) _ hlen).cons _).trans (perm_get_cons_eraseIdx _ _ hi)

theorem shuffle_perm {α : Type} (seed : Nat) (l : List α) :
    List.Perm (shuffle seed l) l :=
  shuffleGo_perm l.length (lcg seed) l rfl

theorem lookupRow_cons (a : String) (b : Val) (rs : Row) (k' : String) :
    lookupRow ((a, b) :: rs) k' = if k' = a then some b else lookupRow rs k' := rfl

theorem lookupRow_filter_ne {k : String} :
    ∀ (r : Row) (k' : String), k' ≠ k →
      lookupRow (r.filter fun p => ¬ p.1 = k) k' = lookupRow r k'
  | [], _, _ => rfl
  | (a, b) :: rs, k', hk => by
    by_cases ha : a = k
    · rw [List.filter_cons_of_neg (by simp [ha])]
      rw [lookupRow_filter_ne rs k' hk, lookupRow_cons]
      rw [if_neg (by rw [ha]; exact hk)]
    · rw [List.filter_cons_of_pos (by simp [ha])]
      rw [lookupRow_cons, lookupRow_cons]
      by_cases hk' : k' = a
      · rw [if_pos hk', if_pos hk']
      · rw [if_neg hk', if_neg hk']
        exact lookupRow_filter_ne rs k' hk

theorem lookupRow_setKey (r : Row) (k k' : String) (v : Val) :
    lookupRow (setKey r k v) k' = if k' = k then some v else lookupRow r k' := by
  unfold setKey
  rw [lookupRow_cons]
  by_cases h : k' = k
  · rw [if_pos h, if_pos h]
  · rw [if_neg h, if_neg h]
    exact lookupRow_filter_ne r k' h




theorem removeColumns_ok_inv {cols : List String} {r out : Row}
    (h : removeColumns cols r = .ok out) :
    (∀ c ∈ cols, (lookupRow r c).isSome) ∧
      out = r.filter fun p => ¬ cols.contains p.1 := by
  unfold removeColumns at h
  cases hf : cols.find? (fun c => (lookupRow r c).isNone) with
  | some c => rw [hf] at h; cases h
  | none =>
    rw [hf] at h
    cases h
    refine ⟨?_, rfl⟩
    intro c hc
    have := List.find?_eq_none.mp hf c hc
    simp only [Option.isNone_iff_eq_none] at this
    exact Option.isSome_iff_ne_none.mpr this

theorem removeColumns_error_inv {cols : List String} {r : Row} {e : Err}
    (h : removeColumns cols r = .error e) :
    ∃ c ∈ cols, e = .missingColumn c ∧ lookupRow r c = none := by
  unfold removeColumns at h
  cases hf : cols.find? (fun c => (lookupRow r c).isNone) with
  | some c =>
    rw [hf] at h
    cases h
    refine ⟨c, List.mem_of_find?_eq_some hf, rfl, ?_⟩
    have := List.find?_some hf
    simpa using this
  | none => rw [hf] at h; cases h

theorem removeColumns_missing {cols : List String} {r : Row} {c : String}
    (hc : c ∈ cols) (hnone : lookupRow r c = none) :
    ∃ c', removeColumns cols r = .error (.missingColumn c') := by
  unfold removeColumns
  cases hf : cols.find? (fun c => (lookupRow r c).isNone) with
  | some c' => exact ⟨c', rfl⟩
  | none =>
    exfalso
    have := List.find?_eq_none.mp hf c hc
    rw [hnone] at this
    simp at this

theorem procRow_ok_inv {sp : String} {r out : Row} (h : procRow sp r = .ok out) :
    ∃ p, process_sample sp r = .ok p ∧
      out = setKey (setKey (setKey r "conversation" (.vStr p.conversation)) "summary"
        (.vStr p.summary)) "text" (.vStr p.text) := by
  unfold procRow at h
  cases hp : process_sample sp r with
  | error e => rw [hp] at h; cases h
  | ok p =>
    rw [hp] at h
    cases h
    exact ⟨p, rfl, rfl⟩

theorem procRow_keeps {sp : String} {r out : Row} (h : procRow sp r = .ok out)
    (k : String) (hk : (lookupRow r k).isSome) : (lookupRow out k).isSome := by
  obtain ⟨p, _, rfl⟩ := procRow_ok_inv h
  rw [lookupRow_setKey]
  by_cases h1 : k = "text"
  · rw [if_pos h1]; rfl
  · rw [if_neg h1, lookupRow_setKey]
    by_cases h2 : k = "summary"
    · rw [if_pos h2]; rfl
    · rw [if_neg h2, lookupRow_setKey]
      by_cases h3 : k = "conversation"
      · rw [if_pos h3]; rfl
      · rw [if_neg h3]; exact hk

theorem procRow_back {sp : String} {r out : Row} (h : procRow sp r = .ok out)
    (k : String) (h1 : k ≠ "conversation") (h2 : k ≠ "summary") (h3 : k ≠ "text") :
    lookupRow out k = lookupRow r k := by
  obtain ⟨p, _, rfl⟩ := procRow_ok_inv h
  rw [lookupRow_setKey, if_neg h3, lookupRow_setKey, if_neg h2, lookupRow_setKey, if_neg h1]

theorem procRow_adds {sp : String} {r out : Row} (h : procRow sp r = .ok out) :
    (lookupRow out "conversation").isSome ∧ (lookupRow out "summary").isSome ∧
      (lookupRow out "text").isSome ∧ ∃ t, lookupRow out "text" = some (.vStr t) := by
  obtain ⟨p, _, rfl⟩ := procRow_ok_inv h
  refine ⟨?_, ?_, ?_, ?_⟩
  · rw [lookupRow_setKey, if_neg (by decide), lookupRow_setKey, if_neg (by decide),
      lookupRow_setKey, if_pos rfl]
    rfl
  · rw [lookupRow_setKey, if_neg (by decide), lookupRow_setKey, if_pos rfl]
    rfl
  · rw [lookupRow_setKey, if_pos rfl]
    rfl
  · exact ⟨p.text, by rw [lookupRow_setKey, if_pos rfl]⟩

theorem lookupRow_filter_not_mem {cols : List String} :
    ∀ (r : Row) (c : String), c ∈ cols →
      lookupRow (r.filter fun p => ¬ cols.contains p.1) c = none
  | [], _, _ => rfl
  | (a, b) :: rs, c, hc => by
    by_cases ha : cols.contains a
    · rw [List.filter_cons_of_neg (by simpa using List.mem_of_elem_eq_true ha)]
      exact lookupRow_filter_not_mem rs c hc
    · rw [List.filter_cons_of_pos
        (by simpa using fun hmem => ha (List.elem_eq_true_of_mem hmem))]
      rw [lookupRow_cons]
      have hca : c ≠ a := by
        rintro rfl
        exact ha (List.elem_eq_true_of_mem hc)
      rw [if_neg hca]
      exact lookupRow_filter_not_mem rs c hc

theorem lookupRow_filter_keep {cols : List String} :
    ∀ (r : Row) (k : String), k ∉ cols →
      lookupRow (r.filter fun p => ¬ cols.contains p.1) k = lookupRow r k
  | [], _, _ => rfl
  | (a, b) :: rs, k, hk => by
    by_cases ha : cols.contains a
    · rw [List.filter_cons_of_neg (by simpa using List.mem_of_elem_eq_true ha)]
      rw [lookupRow_filter_keep rs k hk, lookupRow_cons]
      have hka : k ≠ a := by
        rintro rfl
        exact hk (List.mem_of_elem_eq_true ha)
      rw [if_neg hka]
    · rw [List.filter_cons_of_pos
        (by simpa using fun hmem => ha (List.elem_eq_true_of_mem hmem))]
      rw [lookupRow_cons, lookupRow_cons]
      by_cases hka : k = a
      · rw [if_pos hka, if_pos hka]
      · rw [if_neg hka, if_neg hka]
        exact lookupRow_filter_keep rs k hk

theorem foldl_setKey_isSome (kvs : List (String × Val)) :
    ∀ (acc : Row) (k : String), (lookupRow acc k).isSome →
      (lookupRow (kvs.foldl (fun acc kv => setKey acc kv.1 kv.2) acc) k).isSome := by
  induction kvs with
  | nil => intro acc k hk; exact hk
  | cons kv kvs ih =>
    intro acc k hk
    rw [List.foldl_cons]
    refine ih _ k ?_
    rw [lookupRow_setKey]
    by_cases h : k = kv.1
    · rw [if_pos h]; rfl
    · rw [if_neg h]; exact hk

theorem foldl_setKey_none (kvs : List (String × Val)) (c : String)
    (hks : ∀ kv ∈ kvs, kv.1 ≠ c) :
    ∀ (acc : Row), lookupRow acc c = none →
      lookupRow (kvs.foldl (fun acc kv => setKey acc kv.1 kv.2) acc) c = none := by
  induction kvs with
  | nil => intro acc h; exact h
  | cons kv kvs ih =>
    intro acc h
    rw [List.foldl_cons]
    refine ih (fun x hx => hks x (List.mem_cons_of_mem _ hx)) _ ?_
    rw [lookupRow_setKey, if_neg]
    · exact h
    · intro he
      exact hks kv (List.mem_cons_self _ _) (he ▸ rfl)

theorem foldl_setKey_mem (kvs : List (String × Val)) :
    ∀ kv ∈ kvs, ∀ (acc : Row),
      (lookupRow (kvs.foldl (fun acc kv => setKey acc kv.1 kv.2) acc) kv.1).isSome := by
  induction kvs with
  | nil => intro kv h; simp at h
  | cons kv0 kvs ih =>
    intro kv hkv acc
    rw [List.foldl_cons]
    rcases List.mem_cons.mp hkv with rfl | hmem
    · refine foldl_setKey_isSome kvs _ kv.1 ?_
      rw [lookupRow_setKey, if_pos rfl]
      rfl
    · exact ih kv hmem _

theorem tokMerge_ok_inv {tok : String → List (String × Val)} {r out : Row}
    (h : tokMerge tok r = .ok out) :
    ∃ t, lookupRow r "text" = some (.vStr t) ∧
      out = (tok t).foldl (fun acc kv => setKey acc kv.1 kv.2) r := by
  unfold tokMerge at h
  cases ht : lookupRow r "text" with
  | none => rw [ht] at h; cases h
  | some v =>
    rw [ht] at h
    match v with
    | .vStr t => cases h; exact ⟨t, rfl, rfl⟩
    | .vTurns _ => cases h
    | .vOther _ => cases h
    | .vToks _ => cases h




theorem processSplit_frame
    (sp : String) (tok : String → List (String × Val)) (tokenize : Bool) (seed : Nat)
    (ds out : List Row)
    (h : processSplit sp tok tokenize seed ds = .ok out)
    (htok : ∀ t kv, kv ∈ tok t → kv.1 ∉ COLUMNS_TO_REMOVE) :
    ∀ o ∈ out,
      (∀ c ∈ COLUMNS_TO_REMOVE, lookupRow o c = none) ∧
      (∃ r ∈ ds, ∀ k, k ∉ COLUMNS_TO_REMOVE → (lookupRow r k).isSome →
        (lookupRow o k).isSome) ∧
      (lookupRow o "conversation").isSome ∧ (lookupRow o "summary").isSome ∧
      (lookupRow o "text").isSome ∧
      (tokenize = true → ∃ t, ∀ kv ∈ tok t, (lookupRow o kv.1).isSome) := by
  unfold processSplit at h
  cases hm1 : exMapM (procRow sp) (shuffle seed ds) with
  | error e => rw [hm1] at h; cases h
  | ok rows1 =>
    rw [hm1] at h
    dsimp only at h
    cases hm2 : exMapM (removeColumns COLUMNS_TO_REMOVE) rows1 with
    | error e => rw [hm2] at h; cases h
    | ok rows2 =>
      rw [hm2] at h
      dsimp only at h
      -- properties of any row of rows2
      have hrows2 : ∀ o2 ∈ rows2,
          (∀ c ∈ COLUMNS_TO_REMOVE, lookupRow o2 c = none) ∧
          (∃ r ∈ ds, ∀ k, k ∉ COLUMNS_TO_REMOVE → (lookupRow r k).isSome →
            (lookupRow o2 k).isSome) ∧
          (lookupRow o2 "conversation").isSome ∧ (lookupRow o2 "summary").isSome ∧
          (lookupRow o2 "text").isSome := by
        intro o2 ho2
        obtain ⟨o1, ho1, hrem⟩ := exMapM_ok_mem hm2 o2 ho2
        obtain ⟨r', hr', hproc⟩ := exMapM_ok_mem hm1 o1 ho1
        have hrds : r' ∈ ds := (shuffle_perm seed ds).subset hr'
        obtain ⟨hall, ho2eq⟩ := removeColumns_ok_inv hrem
        obtain ⟨hconv, hsum, htext, _⟩ := procRow_adds hproc
        subst ho2eq
        refine ⟨?_, ⟨r', hrds, ?_⟩, ?_, ?_, ?_⟩
        · intro c hc
          exact lookupRow_filter_not_mem o1 c hc
        · intro k hk hsome
          rw [lookupRow_filter_keep o1 k hk]
          exact procRow_keeps hproc k hsome
        · rw [lookupRow_filter_keep o1 _ (by decide)]
          exact hconv
        · rw [lookupRow_filter_keep o1 _ (by decide)]
          exact hsum
        · rw [lookupRow_filter_keep o1 _ (by decide)]
          exact htext
      by_cases ht : tokenize
      · rw [if_pos ht] at h
        intro o ho
        obtain ⟨o2, ho2, hmerge⟩ := exMapM_ok_mem h o ho
        obtain ⟨hnone, ⟨r, hr, hkeep⟩, hconv, hsum, htext⟩ := hrows2 o2 ho2
        obtain ⟨t, _, hoeq⟩ := tokMerge_ok_inv hmerge
        subst hoeq
        refine ⟨?_, ⟨r, hr, ?_⟩, ?_, ?_, ?_, ?_⟩
        · intro c hc
          refine foldl_setKey_none (tok t) c ?_ o2 (hnone c hc)
          intro kv hkv he
          exact htok t kv hkv (he ▸ hc)
        · intro k hk hsome
          exact foldl_setKey_isSome (tok t) o2 k (hkeep k hk hsome)
        · exact foldl_setKey_isSome (tok t) o2 _ hconv
        · exact foldl_setKey_isSome (tok t) o2 _ hsum
        · exact foldl_setKey_isSome (tok t) o2 _ htext
        · intro _
          exact ⟨t, fun kv hkv => foldl_setKey_mem (tok t) kv hkv o2⟩
      · rw [if_neg ht] at h
        cases h
        intro o ho
        obtain ⟨hnone, hex, hconv, hsum, htext⟩ := hrows2 o ho
        refine ⟨hnone, hex, hconv, hsum, htext, ?_⟩
        intro hcontra
        exact absurd hcontra ht




theorem processSplit_requires_columns
    (sp : String) (tok : String → List (String × Val)) (tokenize : Bool) (seed : Nat)
    (ds out : List Row) (h : processSplit sp tok tokenize seed ds = .ok out) :
    ∀ r ∈ ds, ∀ c ∈ COLUMNS_TO_REMOVE, (lookupRow r c).isSome := by
  unfold processSplit at h
  cases hm1 : exMapM (procRow sp) (shuffle seed ds) with
  | error e => rw [hm1] at h; cases h
  | ok rows1 =>
    rw [hm1] at h
    dsimp only at h
    cases hm2 : exMapM (removeColumns COLUMNS_TO_REMOVE) rows1 with
    | error e => rw [hm2] at h; cases h
    | ok rows2 =>
      intro r hr c hc
      have hrs : r ∈ shuffle seed ds := (shuffle_perm seed ds).mem_iff.mpr hr
      obtain ⟨o1, _, hproc⟩ := exMapM_ok_forall hm1 r hrs
      obtain ⟨o2, _, hrem⟩ := exMapM_ok_forall hm2 o1 ‹o1 ∈ rows1›
      have hsome := (removeColumns_ok_inv hrem).1 c hc
      have hback : lookupRow o1 c = lookupRow r c := by
        have hc6 : c ≠ "conversation" ∧ c ≠ "summary" ∧ c ≠ "text" := by
          simp only [COLUMNS_TO_REMOVE, List.mem_cons, List.not_mem_nil, or_false] at hc
          rcases hc with rfl | rfl | rfl | rfl | rfl | rfl <;> exact ⟨by decide, by decide, by decide⟩
        exact procRow_back hproc c hc6.1 hc6.2.1 hc6.2.2
      rwa [hback] at hsome

theorem processSplit_fails_at_removal
    (sp : String) (tok : String → List (String × Val)) (tokenize : Bool) (seed : Nat)
    (ds : List Row) (rows1 : List Row)
    (hm1 : exMapM (procRow sp) (shuffle seed ds) = .ok rows1)
    (hbad : ∃ o1 ∈ rows1, ∃ c ∈ COLUMNS_TO_REMOVE, lookupRow o1 c = none) :
    ∃ c', processSplit sp tok tokenize seed ds = .error (.missingColumn c') := by
  obtain ⟨o1, ho1, c, hc, hnone⟩ := hbad
  unfold processSplit
  rw [hm1]
  dsimp only
  cases hm2 : exMapM (removeColumns COLUMNS_TO_REMOVE) rows1 with
  | ok rows2 =>
    exfalso
    obtain ⟨o2, _, hrem⟩ := exMapM_ok_forall hm2 o1 ho1
    have := (removeColumns_ok_inv hrem).1 c hc
    rw [hnone] at this
    cases this
  | error e =>
    obtain ⟨o, _, hremerr⟩ := exMapM_error_mem hm2
    obtain ⟨c', _, he, _⟩ := removeColumns_error_inv hremerr
    exact ⟨c', by rw [he]⟩

theorem process_dataset_deterministic (sp : String) (tok : String → List (String × Val))
    (tokenize : Bool) (seed : Nat) (c1 c2 : Corpus) (h : c1 = c2) :
    process_dataset sp tok tokenize seed c1 = process_dataset sp tok tokenize seed c2 ∧
    ∀ kvs out, c1 = Corpus.dict kvs →
      process_dataset sp tok tokenize seed c1 = .ok (Corpus.dict out) →
      out.length = kvs.length ∧
      ∀ (i : Nat) (hk : i < kvs.length) (ho : i < out.length),
        (out.get ⟨i, ho⟩).1 = (kvs.get ⟨i, hk⟩).1 ∧
        processSplit sp tok tokenize seed (kvs.get ⟨i, hk⟩).2 = .ok (out.get ⟨i, ho⟩).2 := by
  constructor
  · rw [h]
  · rintro kvs out rfl hok
    unfold process_dataset at hok
    dsimp only at hok
    cases hm : exMapM (fun kv =>
        (processSplit sp tok tokenize seed kv.2).map (fun d => (kv.1, d))) kvs with
    | error e => rw [hm] at hok; cases hok
    | ok res =>
      rw [hm] at hok
      dsimp only [Except.map] at hok
      cases hok
      obtain ⟨hlen, hget⟩ := exMapM_get hm
      refine ⟨hlen, ?_⟩
      intro i hk ho
      have := hget i hk ho
      cases hps : processSplit sp tok tokenize seed (kvs.get ⟨i, hk⟩).2 with
      | error e =>
        rw [hps] at this
        cases this
      | ok d =>
        rw [hps] at this
        dsimp only [Except.map] at this
        injection this with hpair
        constructor
        · rw [← hpair]
        · rw [← hpair]




/-! ### Claim theorems -/

/-- The raw record of the spec's end-to-end example. -/
def c1row : Row :=
  [("log", .vTurns [⟨"Hi http://x.com", "Hello @bob"⟩]),
   ("original dialog info",
    .vStr "\x7b\"summaries\":\x7b\"abstractive_summaries\":[[\"Greeting exchange.\"]]\x7d\x7d")]

def c1log : List Turn := [⟨"Hi http://x.com", "Hello @bob"⟩]

theorem process_sample_c1row_raw (sp : String) : process_sample sp c1row = .ok
    { conversation := format_conversation c1log
      summary := "Greeting exchange."
      text := generate_prompt sp (format_conversation c1log) (some "Greeting exchange.") } :=
  rfl

theorem generate_prompt_c1_text (sp : String) :
    generate_prompt sp "user: Hi\nagent: Hello" (some "Greeting exchange.") =
    "### Instruction: " ++ sp ++
      "\n\n### Input:\nuser: Hi\nagent: Hello\n\n### Response:\nGreeting exchange." := by
  simp only [generate_prompt, String.append_assoc]
  rfl

theorem format_conversation_c1log :
    format_conversation c1log = "user: Hi\nagent: Hello" := by
  simp [c1log, format_conversation, clean_text, stripL, stripRight, collapseL, subPat,
    matchAt, matchH, matchMention, matchCaret, dropNonWs, dropNonSp, pyWs, pyWsCodes]
  rfl

/-- C1: applying `process_sample` to the raw record
`(log = [(user: "Hi http://x.com", system: "Hello @bob")],
original dialog info = json with abstractive summary "Greeting exchange.")`
yields exactly the claimed conversation, summary and three-section text,
for every configured system prompt. -/
theorem claim_C1_end_to_end (sp : String) : process_sample sp c1row = .ok
    { conversation := "user: Hi\nagent: Hello"
      summary := "Greeting exchange."
      text := "### Instruction: " ++ sp ++
        "\n\n### Input:\nuser: Hi\nagent: Hello\n\n### Response:\nGreeting exchange." } := by
  rw [process_sample_c1row_raw, format_conversation_c1log, generate_prompt_c1_text]

theorem pyJoin_ne_mme (j : Json) : pyJoin j ≠ .error .malformedMetadata := by
  intro h
  unfold pyJoin at h
  split at h
  · split at h <;> simp at h
  · simp at h
  · simp at h
  · simp at h

theorem joinFirst_ne_mme (j : Json) : joinFirst j ≠ .error .malformedMetadata := by
  intro h
  unfold joinFirst at h
  split at h
  · simp at h
  · exact pyJoin_ne_mme _ h
  · split at h
    · simp at h
    · exact pyJoin_ne_mme _ h
  · simp at h
  · simp at h

theorem extract_summary_parse_none {s : String} (h : jsonLoads s = none) :
    extract_summary s = .error .malformedMetadata := by
  unfold extract_summary
  rw [h]

theorem extract_summary_ne_mme {s : String} {top : Json} (h : jsonLoads s = some top) :
    extract_summary s ≠ .error .malformedMetadata := by
  intro hc
  unfold extract_summary at hc
  rw [h] at hc
  dsimp only at hc
  split at hc
  · split at hc
    · split at hc
      · exact joinFirst_ne_mme _ hc
      · simp at hc
    · simp at hc
  · simp at hc

/-- C2 counterexample: `"[]"` is valid JSON in which the path
`summaries.abstractive_summaries` is absent, yet `extract_summary` does not
return the empty string — it raises `AttributeError` (`[].get`). -/
theorem claim_C2_counterexample :
    (jsonLoads "[]").isSome = true ∧
    extract_summary "[]" = .error .attributeError := ⟨rfl, rfl⟩

/-- C2 (amended): `extract_summary` fails with MalformedMetadataError iff
its argument is not valid JSON.  For valid JSON that is an object whose
`summaries` member (when present) is itself an object: an absent or empty
`abstractive_summaries` yields the empty string, and a first inner sequence
of string fragments is joined with single spaces.  (Valid JSON of other
shapes raises AttributeError/TypeError instead of returning "".)  The
spec's three concrete examples hold. -/
theorem claim_C2_amended :
    (∀ s, extract_summary s = .error .malformedMetadata ↔ jsonLoads s = none) ∧
    (∀ s kvs, jsonLoads s = some (.obj kvs) → jlookup kvs "summaries" = none →
      extract_summary s = .ok "") ∧
    (∀ s kvs kvs2, jsonLoads s = some (.obj kvs) →
      jlookup kvs "summaries" = some (.obj kvs2) →
      jlookup kvs2 "abstractive_summaries" = none → extract_summary s = .ok "") ∧
    (∀ s kvs kvs2, jsonLoads s = some (.obj kvs) →
      jlookup kvs "summaries" = some (.obj kvs2) →
      jlookup kvs2 "abstractive_summaries" = some (.arr []) →
      extract_summary s = .ok "") ∧
    (∀ s kvs kvs2 (frs : List String) (rest : List Json),
      jsonLoads s = some (.obj kvs) →
      jlookup kvs "summaries" = some (.obj kvs2) →
      jlookup kvs2 "abstractive_summaries" = some (.arr (.arr (frs.map .str) :: rest)) →
      extract_summary s = .ok (" ".intercalate frs)) ∧
    extract_summary "\x7b\x7d" = .ok "" ∧
    extract_summary
      "\x7b\"summaries\":\x7b\"abstractive_summaries\":[[\"a\",\"b\"]]\x7d\x7d" =
      .ok "a b" ∧
    extract_summary "not json" = .error .malformedMetadata := by
  refine ⟨?_, ?_, ?_, ?_, ?_, rfl, rfl, rfl⟩
  · intro s
    constructor
    · intro h
      cases hj : jsonLoads s with
      | none => rfl
      | some top => exact absurd h (extract_summary_ne_mme hj)
    · exact extract_summary_parse_none
  · intro s kvs hj hl
    unfold extract_summary
    rw [hj]
    dsimp only
    rw [hl]
    rfl
  · intro s kvs kvs2 hj hl hl2
    unfold extract_summary
    rw [hj]
    dsimp only
    rw [hl]
    dsimp only [Option.getD]
    rw [hl2]
    rfl
  · intro s kvs kvs2 hj hl hl2
    unfold extract_summary
    rw [hj]
    dsimp only
    rw [hl]
    dsimp only [Option.getD]
    rw [hl2]
    rfl
  · intro s kvs kvs2 frs rest hj hl hl2
    unfold extract_summary
    rw [hj]
    dsimp only
    rw [hl]
    dsimp only [Option.getD]
    rw [hl2]
    dsimp only [Option.getD]
    have htr : jtruthy (.arr (.arr (frs.map .str) :: rest)) = true := rfl
    rw [if_pos htr]
    unfold joinFirst pyJoin
    dsimp only
    have hall : ((frs.map Json.str).all isJsonStr) = true :=
      List.all_eq_true.mpr (fun x hx => by
        obtain ⟨y, _, rfl⟩ := List.mem_map.mp hx
        rfl)
    rw [if_pos hall]
    have hmap : (frs.map Json.str).map jsonStrVal = frs := by
      rw [List.map_map]
      have hcomp : (jsonStrVal ∘ Json.str) = id := funext fun x => rfl
      rw [hcomp, List.map_id]
    rw [hmap]

theorem claim_C2_witness : extract_summary "\x7b\x7d" = .ok "" :=
  claim_C2_amended.2.1 "\x7b\x7d" [] rfl rfl




/-- C3 counterexample: a raw record with no `log` field does not fail —
`sample.get("log", [])` silently defaults it, and `process_sample`
succeeds with an empty conversation. -/
theorem claim_C3_counterexample :
    process_sample DEFAULT_SYSTEM_PROMPT [("original dialog info", .vStr "\x7b\x7d")] =
    .ok { conversation := ""
          summary := ""
          text := "### Instruction: Summarize this conversation between a human and AI assistant, capturing key points and maintaining context.\n\n### Input:\n\n\n### Response:\n" } :=
  rfl

/-- C3 (amended): a record missing `original dialog info` makes
`process_sample` fail with `KeyError` (the spec's MissingFieldError),
provided the `log` fetch itself does not raise; a record missing `log` is
processed exactly as if `log` were the empty list — it does not fail. -/
theorem claim_C3_amended (sp : String) (sample : Row) :
    (∀ ts, getLog sample = .ok ts → lookupRow sample "original dialog info" = none →
      process_sample sp sample = .error (.keyError "original dialog info")) ∧
    (lookupRow sample "log" = none →
      process_sample sp sample = process_sample sp (("log", Val.vTurns []) :: sample)) := by
  constructor
  · intro ts hlog hinfo
    unfold process_sample getInfo
    rw [hlog, hinfo]
  · intro hlog
    unfold process_sample getLog getInfo
    rw [hlog]
    have h1 : lookupRow (("log", Val.vTurns []) :: sample) "log" = some (Val.vTurns []) := by
      rw [lookupRow_cons, if_pos rfl]
    have h2 : lookupRow (("log", Val.vTurns []) :: sample) "original dialog info" =
        lookupRow sample "original dialog info" := by
      rw [lookupRow_cons, if_neg (by decide)]
    rw [h1, h2]

theorem claim_C3_witness :
    process_sample "P" [("x", Val.vOther 0)] = .error (.keyError "original dialog info") :=
  (claim_C3_amended "P" [("x", Val.vOther 0)]).1 [] rfl rfl

/-- C4 counterexample: for the whitespace-only summary `" "` — which trims
to empty — `generate_prompt` does not emit the bare response header: `" "`
is truthy in Python, so the blank is appended after the header. -/
theorem claim_C4_counterexample :
    pyStrip " " = "" ∧
    ¬ (("### Response:\n").data <:+
        (generate_prompt DEFAULT_SYSTEM_PROMPT "C" (some " ")).data) := by
  constructor
  · rfl
  · decide

/-- C4 (amended): `generate_prompt` ends with the bare header
`"### Response:\n"` exactly when the summary is `None` or the empty
string (Python falsiness), and ends with the header followed by `s` for
every non-empty `s` — including whitespace-only strings, which trim to
empty but are still appended. -/
theorem claim_C4_amended (sp conv : String) (s : Option String) :
    ((s = none ∨ s = some "") →
      ("### Response:\n").data <:+ (generate_prompt sp conv s).data) ∧
    (∀ str, s = some str → str ≠ "" →
      ("### Response:\n" ++ str).data <:+ (generate_prompt sp conv s).data) := by
  constructor
  · rintro (rfl | rfl) <;>
    · refine ⟨("### Instruction: " ++ sp ++ "\n\n### Input:\n" ++ conv ++ "\n\n").data, ?_⟩
      simp [generate_prompt, String.data_append]
  · rintro str rfl hne
    refine ⟨("### Instruction: " ++ sp ++ "\n\n### Input:\n" ++ conv ++ "\n\n").data, ?_⟩
    simp [generate_prompt, hne, String.data_append]

theorem claim_C4_witness :
    ("### Response:\n").data <:+ (generate_prompt "P" "C" none).data :=
  (claim_C4_amended "P" "C" none).1 (Or.inl rfl)

/-- C5: every processed record's `text` is the three-section template —
instruction with the system prompt, input containing the record's
conversation verbatim, and a response section that carries the record's
summary iff the summary is non-empty after trimming, and is the bare
header otherwise. -/
theorem claim_C5_text_invariant (sp : String) (sample : Row) (out : Processed)
    (h : process_sample sp sample = .ok out) :
    out.text = "### Instruction: " ++ sp ++ "\n\n### Input:\n" ++ out.conversation ++
      "\n\n" ++ (if pyStrip out.summary = "" then "### Response:\n"
                 else "### Response:\n" ++ out.summary) ∧
    (pyStrip out.summary = "" → ("### Response:\n").data <:+ out.text.data) ∧
    (pyStrip out.summary ≠ "" →
      ("### Response:\n" ++ out.summary).data <:+ out.text.data) := by
  have hmain : out.text = "### Instruction: " ++ sp ++ "\n\n### Input:\n" ++
      out.conversation ++ "\n\n" ++
      (if pyStrip out.summary = "" then "### Response:\n"
       else "### Response:\n" ++ out.summary) := by
    unfold process_sample at h
    split at h
    · cases h
    · split at h
      · cases h
      · split at h
        · cases h
        · injection h with h
          subst h
          simp only [generate_prompt]
          split
          next s heq =>
            split at heq
            · cases heq
            next hne =>
              injection heq with heq2
              subst heq2
              rw [if_neg hne, if_neg (fun e => hne (by rw [e]; rfl))]
          next heq =>
            split at heq
            next hpos => rw [if_pos hpos]
            · cases heq
  refine ⟨hmain, ?_, ?_⟩
  · intro hp
    refine ⟨("### Instruction: " ++ sp ++ "\n\n### Input:\n" ++ out.conversation ++
      "\n\n").data, ?_⟩
    rw [hmain, if_pos hp]
    simp [String.data_append]
  · intro hp
    refine ⟨("### Instruction: " ++ sp ++ "\n\n### Input:\n" ++ out.conversation ++
      "\n\n").data, ?_⟩
    rw [hmain, if_neg hp]
    simp [String.data_append]

theorem claim_C5_witness :
    (Processed.mk "" "" "### Instruction: P\n\n### Input:\n\n\n### Response:\n").text =
      "### Instruction: " ++ "P" ++ "\n\n### Input:\n" ++
        (Processed.mk "" "" "### Instruction: P\n\n### Input:\n\n\n### Response:\n").conversation ++
        "\n\n" ++
        (if pyStrip (Processed.mk "" ""
            "### Instruction: P\n\n### Input:\n\n\n### Response:\n").summary = ""
         then "### Response:\n"
         else "### Response:\n" ++ (Processed.mk "" ""
            "### Instruction: P\n\n### Input:\n\n\n### Response:\n").summary) :=
  (claim_C5_text_invariant "P" [("original dialog info", .vStr "\x7b\x7d")]
    (Processed.mk "" "" "### Instruction: P\n\n### Input:\n\n\n### Response:\n") rfl).1




/-- C6: `format_conversation` produces the newline join of exactly 2N
lines for N turns, in original order — `"user: "` plus the cleaned user
utterance, then `"agent: "` plus the cleaned system response per turn —
with no newline inside any line (hence no trailing newline), splitting
back into exactly those 2N lines, and the empty string for no turns. -/
theorem claim_C6_format_lines (log : List Turn) :
    (format_conversation log).data = List.intercalate ['\n'] (turnLinesL log) ∧
    (turnLinesL log).length = 2 * log.length ∧
    (∀ l ∈ turnLinesL log, '\n' ∉ l) ∧
    (log = [] → format_conversation log = "") ∧
    (log ≠ [] → (format_conversation log).data.splitOn '\n' = turnLinesL log) := by
  refine ⟨format_conversation_data log, turnLinesL_length log, turnLinesL_no_nl log, ?_, ?_⟩
  · rintro rfl
    rfl
  · intro hne
    rw [format_conversation_data log]
    refine List.splitOn_intercalate _ '\n' (fun l hl => turnLinesL_no_nl log l hl) ?_
    intro hnil
    have hlen := turnLinesL_length log
    rw [hnil] at hlen
    simp only [List.length_nil] at hlen
    exact hne (List.length_eq_zero.mp (by omega))

theorem claim_C6_witness :
    (format_conversation [⟨"a", "b"⟩]).data.splitOn '\n' = turnLinesL [⟨"a", "b"⟩] :=
  (claim_C6_format_lines [⟨"a", "b"⟩]).2.2.2.2 (by simp)

/-- C7: `clean_text` is idempotent, its output contains no substring
matching the URL (`http\S+`), mention (`@[^\s]+`) or caret (`\^[^ ]+`)
patterns, and collapsing whitespace runs or stripping the output again is
a no-op. -/
theorem claim_C7_clean_text (s : String) :
    clean_text (clean_text s) = clean_text s ∧
    noMatch (clean_text s).data = true ∧
    collapseL (clean_text s).data = (clean_text s).data ∧
    stripL (clean_text s).data = (clean_text s).data :=
  ⟨clean_text_idem s, noMatch_clean_text s, collapseL_clean_text s, stripL_clean_text s⟩

/-- C8: the pipeline is a pure function of the corpus and seed — two
invocations on equal corpora with the same seed give identical results,
record order and content included; and in a `DatasetDict`, each named
split is processed independently with that same seed (the split's output
equals `processSplit` on it alone, in the same position). -/
theorem claim_C8_deterministic (sp : String) (tok : String → List (String × Val))
    (tokenize : Bool) (seed : Nat) (c1 c2 : Corpus) (h : c1 = c2) :
    process_dataset sp tok tokenize seed c1 = process_dataset sp tok tokenize seed c2 ∧
    ∀ kvs out, c1 = Corpus.dict kvs →
      process_dataset sp tok tokenize seed c1 = .ok (Corpus.dict out) →
      out.length = kvs.length ∧
      ∀ (i : Nat) (hk : i < kvs.length) (ho : i < out.length),
        (out.get ⟨i, ho⟩).1 = (kvs.get ⟨i, hk⟩).1 ∧
        processSplit sp tok tokenize seed (kvs.get ⟨i, hk⟩).2 = .ok (out.get ⟨i, ho⟩).2 :=
  process_dataset_deterministic sp tok tokenize seed c1 c2 h

theorem claim_C8_witness :
    ([("train", ([] : List Row))] : List (String × List Row)).length =
      ([("train", ([] : List Row))] : List (String × List Row)).length ∧
    ∀ (i : Nat) (hk : i < ([("train", ([] : List Row))] : List (String × List Row)).length)
      (ho : i < ([("train", ([] : List Row))] : List (String × List Row)).length),
      (([("train", ([] : List Row))] : List (String × List Row)).get ⟨i, ho⟩).1 =
        (([("train", ([] : List Row))] : List (String × List Row)).get ⟨i, hk⟩).1 ∧
      processSplit "P" (fun _ => []) false 42
          ((([("train", ([] : List Row))] : List (String × List Row)).get ⟨i, hk⟩).2) =
        .ok ((([("train", ([] : List Row))] : List (String × List Row)).get ⟨i, ho⟩).2) :=
  (claim_C8_deterministic "P" (fun _ => []) false 42
      (Corpus.dict [("train", [])]) (Corpus.dict [("train", [])]) rfl).2
    [("train", [])] [("train", [])] rfl rfl

/-- C9: every record produced by the split pipeline contains no column
named in `COLUMNS_TO_REMOVE`; no other field of the originating raw
record is removed; the added `conversation`, `summary` and `text` fields
are present; and when tokenization is requested, so is every field the
tokenizer emits (assuming the tokenizer does not emit drop-column names,
as its contract provides token fields like ids and masks). -/
theorem claim_C9_frame
    (sp : String) (tok : String → List (String × Val)) (tokenize : Bool) (seed : Nat)
    (ds out : List Row)
    (h : processSplit sp tok tokenize seed ds = .ok out)
    (htok : ∀ t kv, kv ∈ tok t → kv.1 ∉ COLUMNS_TO_REMOVE) :
    ∀ o ∈ out,
      (∀ c ∈ COLUMNS_TO_REMOVE, lookupRow o c = none) ∧
      (∃ r ∈ ds, ∀ k, k ∉ COLUMNS_TO_REMOVE → (lookupRow r k).isSome →
        (lookupRow o k).isSome) ∧
      (lookupRow o "conversation").isSome ∧ (lookupRow o "summary").isSome ∧
      (lookupRow o "text").isSome ∧
      (tokenize = true → ∃ t, ∀ kv ∈ tok t, (lookupRow o kv.1).isSome) :=
  processSplit_frame sp tok tokenize seed ds out h htok

/-- The complete raw record used as a concrete witness input. -/
def wrow : Row :=
  [("original dialog id", .vOther 1), ("new dialog id", .vOther 2),
   ("dialog index", .vOther 3), ("original dialog info", .vStr "\x7b\x7d"),
   ("log", .vTurns []), ("prompt", .vOther 4)]

def wtokRow : Row :=
  [("input_ids", .vToks [1, 2]),
   ("text", .vStr "### Instruction: P\n\n### Input:\n\n\n### Response:\n"),
   ("summary", .vStr ""), ("conversation", .vStr "")]

theorem claim_C9_witness :
    lookupRow wtokRow "log" = none ∧ (lookupRow wtokRow "conversation").isSome ∧
      (lookupRow wtokRow "text").isSome := by
  have h := claim_C9_frame "P" (fun _ => [("input_ids", Val.vToks [1, 2])]) true 42 [wrow]
    [wtokRow] rfl
    (fun t kv hkv => by
      simp only [List.mem_singleton] at hkv
      subst hkv
      decide)
    wtokRow (List.mem_singleton_self _)
  exact ⟨h.1 "log" (by decide), h.2.2.1, h.2.2.2.2.1⟩

/-- C10 counterexample: a split whose records lack `original dialog info`
(one of the six drop columns) does not fail at the column-removal step —
it fails earlier, during the `process_sample` map, with `KeyError`. -/
theorem claim_C10_counterexample :
    processSplit "P" (fun _ => []) false 42
      [[("log", Val.vTurns []), ("original dialog id", Val.vStr "x"),
        ("new dialog id", Val.vStr "y"), ("dialog index", Val.vStr "i"),
        ("prompt", Val.vStr "p")]] =
    .error (.keyError "original dialog info") := rfl

/-- C10 (amended): the split pipeline succeeds only if every record
carries all six drop columns.  A record missing `original dialog info`
aborts the split during the record-processing map with `KeyError`
(MissingFieldError); when the map succeeds and some mapped record still
lacks a drop column (e.g. `log` or `prompt` was absent from the raw
schema), the split fails at the column-removal step with the
missing-column error rather than skipping the name. -/
theorem claim_C10_amended (sp : String) (tok : String → List (String × Val))
    (tokenize : Bool) (seed : Nat) :
    (∀ ds out, processSplit sp tok tokenize seed ds = .ok out →
      ∀ r ∈ ds, ∀ c ∈ COLUMNS_TO_REMOVE, (lookupRow r c).isSome) ∧
    (∀ ds rows1, exMapM (procRow sp) (shuffle seed ds) = .ok rows1 →
      (∃ o1 ∈ rows1, ∃ c ∈ COLUMNS_TO_REMOVE, lookupRow o1 c = none) →
      ∃ c', processSplit sp tok tokenize seed ds = .error (.missingColumn c')) :=
  ⟨fun ds out h => processSplit_requires_columns sp tok tokenize seed ds out h,
   fun ds rows1 hm1 hbad => processSplit_fails_at_removal sp tok tokenize seed ds rows1
     hm1 hbad⟩

theorem claim_C10_witness : (lookupRow wrow "prompt").isSome :=
  (claim_C10_amended "P" (fun _ => []) false 42).1 [wrow]
    [[("text", .vStr "### Instruction: P\n\n### Input:\n\n\n### Response:\n"),
      ("summary", .vStr ""), ("conversation", .vStr "")]] rfl
    wrow (List.mem_singleton_self _) "prompt" (by decide)


end Processor
